import Mathlib

/-!
# Verification of the danish-radio-explorer catalog/matching core

Shallow embedding of the cumulative catalog merger
(`Scripts/radio_playlist_consolidator.py`) and the fuzzy resolver /
exporters (`Scripts/webapp/playlist_lib.py`).

Strings are modelled as Lean `String` (a wrapper around `List Char`);
Python string operations (strip, lower, split, comparisons) are
implemented explicitly at the `List Char` level so that they mirror the
Python semantics (lexicographic comparison by code point, ASCII
whitespace/case; the scripts only handle such data).  Durations and
fuzzy scores, `float` in Python, are modelled as `ℚ` (the code only
compares and subtracts them, never relies on rounding).
-/

set_option autoImplicit false

namespace RadioExplorer

/-! ## Python-style character/string primitives -/

/-- Python `\s` / `str.strip` whitespace characters (ASCII range). -/
def isSpacePy (c : Char) : Bool :=
  c = ' ' || c = '\t' || c = '\n' || c = '\x0d' || c = '\x0b' || c = '\x0c'

/-- Python regex word characters (`\w`), ASCII range. -/
def isWordChar (c : Char) : Bool :=
  c.isAlpha || c.isDigit || c = '_'

/-- Drop leading whitespace (left part of Python `str.strip`). -/
def trimStart (l : List Char) : List Char := l.dropWhile isSpacePy

/-- Drop trailing whitespace (right part of Python `str.strip`). -/
def trimEnd (l : List Char) : List Char := (l.reverse.dropWhile isSpacePy).reverse

/-- Python `str.strip()` on a character list. -/
def pyTrim (l : List Char) : List Char := trimEnd (trimStart l)

/-- Python `str.strip()` on a `String`. -/
def pyStrip (s : String) : String := String.mk (pyTrim s.toList)

/-- Python `str.lower()` (ASCII; the scripts' data is handled likewise). -/
def lowerChars (l : List Char) : List Char := l.map Char.toLower

/-! ## The identity normalizer (`normalize_text` in `playlist_lib.py`)

Each `re.sub` of the source is implemented as a left-to-right scanner
over the character list, mirroring Python `re` semantics (leftmost
match, leftmost alternative, greedy optional parts, word boundaries on
the original string).  Scanners consume at least one character per
step, so `length + 1` fuel suffices. -/

/-- Word-boundary test between an optional previous char and the start
of a match beginning with a word character (`\b` before `feat` etc.). -/
def boundaryBefore (prev : Option Char) : Bool :=
  match prev with
  | none => true
  | some c => !(isWordChar c)

/-- `\b` after a word character: end of input or a non-word char next. -/
def boundaryAfterWord (l : List Char) : Bool :=
  match l with
  | [] => true
  | c :: _ => !(isWordChar c)

/-- Try one alternative of `\b(feat|ft|featuring)\.?\b` at the current
position: the literal, then a greedy optional `.` (kept only when a
word char follows it, since `.` is a non-word char), then `\b`.
Returns the last matched char and the remaining input. -/
def tryFeatLit (lit : List Char) (l : List Char) : Option (Char × List Char) :=
  if lit.isPrefixOf l then
    let rest := l.drop lit.length
    match rest with
    | '.' :: r2 =>
      match r2 with
      | c :: _ => if isWordChar c then some ('.', r2)
                  else if boundaryAfterWord rest then some ('t', rest) else none
      | [] => if boundaryAfterWord rest then some ('t', rest) else none
    | _ => if boundaryAfterWord rest then some ('t', rest) else none
  else none

/-- The alternation `(feat|ft|featuring)` in source order. -/
def matchFeatAt (l : List Char) : Option (Char × List Char) :=
  (tryFeatLit ['f', 'e', 'a', 't'] l).orElse fun _ =>
    (tryFeatLit ['f', 't'] l).orElse fun _ =>
      tryFeatLit ['f', 'e', 'a', 't', 'u', 'r', 'i', 'n', 'g'] l

/-- Scanner for `re.sub(r"\b(feat|ft|featuring)\.?\b", "", s)`. -/
def featGo : Nat → Option Char → List Char → List Char
  | 0, _, l => l
  | _ + 1, _, [] => []
  | fuel + 1, prev, c :: cs =>
    if boundaryBefore prev then
      match matchFeatAt (c :: cs) with
      | some (lastc, rest) => featGo fuel (some lastc) rest
      | none => c :: featGo fuel (some c) cs
    else c :: featGo fuel (some c) cs

def featSub (l : List Char) : List Char := featGo (l.length + 1) none l

/-- Qualifier keywords looked for inside brackets. -/
def qualifierKeywords : List (List Char) :=
  [['r', 'e', 'm', 'i', 'x'], ['e', 'd', 'i', 't'],
   ['v', 'e', 'r', 's', 'i', 'o', 'n'],
   ['r', 'e', 'm', 'a', 's', 't', 'e', 'r'], ['l', 'i', 'v', 'e'],
   ['e', 'x', 't', 'e', 'n', 'd', 'e', 'd'], ['m', 'i', 'x']]

/-- Substring containment on character lists. -/
def containsSeq (kw : List Char) : List Char → Bool
  | [] => kw.isEmpty
  | c :: cs => kw.isPrefixOf (c :: cs) || containsSeq kw cs

def containsQualifier (content : List Char) : Bool :=
  qualifierKeywords.any fun kw => containsSeq kw content

/-- Scanner for the bracketed-qualifier removal
`re.sub(r"\((?:[^)]*(?:remix|...)[^)]*)\)", " ", s)` (and the `[...]`,
`\x7b...\x7d` variants): a bracket is matched up to the first closing
delimiter, provided the enclosed content mentions a keyword; the whole
match is replaced by a single space. -/
def bracketGo (op cl : Char) : Nat → List Char → List Char
  | 0, l => l
  | _ + 1, [] => []
  | fuel + 1, c :: cs =>
    if c = op then
      let content := cs.takeWhile (fun d => !(d = cl))
      let rest := cs.dropWhile (fun d => !(d = cl))
      match rest with
      | r0 :: r => if r0 = cl && containsQualifier content then
                     ' ' :: bracketGo op cl fuel r
                   else c :: bracketGo op cl fuel cs
      | [] => c :: bracketGo op cl fuel cs
    else c :: bracketGo op cl fuel cs

def bracketSub (op cl : Char) (l : List Char) : List Char :=
  bracketGo op cl (l.length + 1) l

/-- Alternatives of `\b(?:radio|club|extended|clean|dirty)\s+edit\b`. -/
def editPhraseLits : List (List Char) :=
  [['r', 'a', 'd', 'i', 'o'], ['c', 'l', 'u', 'b'],
   ['e', 'x', 't', 'e', 'n', 'd', 'e', 'd'],
   ['c', 'l', 'e', 'a', 'n'], ['d', 'i', 'r', 't', 'y']]

/-- Try `LIT\s+edit\b` at the current position; returns the remainder. -/
def tryEditPhrase (l : List Char) : Option (List Char) :=
  (editPhraseLits.filterMap fun lit =>
    if lit.isPrefixOf l then
      let rest := l.drop lit.length
      let sp := rest.takeWhile isSpacePy
      let rest2 := rest.dropWhile isSpacePy
      if sp.length ≥ 1 && List.isPrefixOf ['e', 'd', 'i', 't'] rest2 then
        let rest3 := rest2.drop 4
        if boundaryAfterWord rest3 then some rest3 else none
      else none
    else none).head?

/-- Scanner for
`re.sub(r"\b(?:radio|club|extended|clean|dirty)\s+edit\b", "", s)`. -/
def editPhraseGo : Nat → Option Char → List Char → List Char
  | 0, _, l => l
  | _ + 1, _, [] => []
  | fuel + 1, prev, c :: cs =>
    if boundaryBefore prev then
      match tryEditPhrase (c :: cs) with
      | some rest => editPhraseGo fuel (some 't') rest
      | none => c :: editPhraseGo fuel (some c) cs
    else c :: editPhraseGo fuel (some c) cs

def editPhraseSub (l : List Char) : List Char :=
  editPhraseGo (l.length + 1) none l

/-- After `remaster(ed)?\b`, the greedy optional `\s*\d{2,4}`:
any whitespace followed by two to four digits (greedy, at least two). -/
def remasterYear (l : List Char) : List Char :=
  let sp := l.takeWhile isSpacePy
  let rest := l.dropWhile isSpacePy
  let digits := rest.takeWhile Char.isDigit
  let _ := sp
  if digits.length ≥ 2 then rest.drop (min digits.length 4) else l

/-- Try `remaster(?:ed)?\b(?:\s*\d{2,4})?` at the current position. -/
def tryRemaster (l : List Char) : Option (List Char) :=
  if List.isPrefixOf ['r', 'e', 'm', 'a', 's', 't', 'e', 'r'] l then
    let rest := l.drop 8
    if List.isPrefixOf ['e', 'd'] rest && boundaryAfterWord (rest.drop 2) then
      some (remasterYear (rest.drop 2))
    else if boundaryAfterWord rest then some (remasterYear rest)
    else none
  else none

/-- Scanner for `re.sub(r"\bremaster(?:ed)?\b(?:\s*\d{2,4})?", "", s)`. -/
def remasterGo : Nat → Option Char → List Char → List Char
  | 0, _, l => l
  | _ + 1, _, [] => []
  | fuel + 1, prev, c :: cs =>
    if boundaryBefore prev then
      match tryRemaster (c :: cs) with
      | some rest => remasterGo fuel (some 'x') rest
      | none => c :: remasterGo fuel (some c) cs
    else c :: remasterGo fuel (some c) cs

def remasterSub (l : List Char) : List Char :=
  remasterGo (l.length + 1) none l

/-- Python `str.replace(old, new)`: left-to-right, non-overlapping. -/
def replaceGo (old new : List Char) : Nat → List Char → List Char
  | 0, l => l
  | _ + 1, [] => []
  | fuel + 1, c :: cs =>
    if old.isPrefixOf (c :: cs) then
      new ++ replaceGo old new fuel ((c :: cs).drop old.length)
    else c :: replaceGo old new fuel cs

def replaceSub (old new l : List Char) : List Char :=
  replaceGo old new (l.length + 1) l

/-- Scanner for `re.sub(r"\s+", " ", s)`. -/
def collapseGo : Nat → List Char → List Char
  | 0, l => l
  | _ + 1, [] => []
  | fuel + 1, c :: cs =>
    if isSpacePy c then ' ' :: collapseGo fuel (cs.dropWhile isSpacePy)
    else c :: collapseGo fuel cs

def collapseSub (l : List Char) : List Char := collapseGo (l.length + 1) l

/-- `normalize_text` from `playlist_lib.py`, steps in source order:
strip+lower, featuring markers, bracketed qualifiers (three bracket
shapes), trailing edit phrases, remaster phrases, `" & "` → `" and "`,
the mojibake dash literal, whitespace collapse. -/
def normalize_text (s : String) : String :=
  let l0 := lowerChars (pyTrim s.toList)
  let l1 := featSub l0
  let l2 := bracketSub '(' ')' l1
  let l3 := bracketSub '[' ']' l2
  let l4 := bracketSub '\x7b' '\x7d' l3
  let l5 := editPhraseSub l4
  let l6 := remasterSub l5
  let l7 := replaceSub [' ', '&', ' '] [' ', 'a', 'n', 'd', ' '] l6
  let l8 := replaceSub ['â', '€', '“'] ['-'] l7
  String.mk (collapseSub l8)

/-- `normalize_key` from `playlist_lib.py`. -/
def normalize_key (artist title : String) : String :=
  normalize_text artist ++ " - " ++ normalize_text title

/-! ## Cumulative catalog merger (`radio_playlist_consolidator.py`)

The durable catalog is a list of rows with string cells, exactly the
columns of the CSV.  Python dates are compared as strings (`<`/`>` on
`str`), which is the lexicographic code-point order: we use Mathlib's
`LinearOrder String` (the same order).  Station sets are Python `set`s,
modelled as `Finset String`; `sorted()` is `Finset.sort (· ≤ ·)`. -/

/-- A row of the durable cumulative CSV
(Artist, Title, Stations, FirstSeen, LastSeen, BPM, Key). -/
structure CumRow where
  artist : String
  title : String
  stations : String
  firstSeen : String
  lastSeen : String
  bpm : String
  keyCol : String
  deriving DecidableEq, Repr

/-- A row of the per-run table `all_df`
(Artist, Title, Track, Stations columns; BPM/Key cells optional). -/
structure InRow where
  artist : String
  title : String
  track : String
  stations : String
  bpm : Option String
  keyVal : Option String
  deriving DecidableEq, Repr

/-- `_normalize_key2`: simple strip+lowercase key used by the merger. -/
def normalizeKey2 (artist title : String) : String :=
  String.mk (lowerChars (pyTrim artist.toList) ++
    [' ', '-', ' '] ++ lowerChars (pyTrim title.toList))

/-- The key of a stored catalog row, as `idx_map` computes it. -/
def catKey (r : CumRow) : String := normalizeKey2 r.artist r.title

/-- Split a character list at the first occurrence of `sep`
(Python `str.split(sep, 1)` when it finds a separator). -/
def splitOnce (sep : List Char) : List Char → Option (List Char × List Char)
  | [] => none
  | c :: cs =>
    if sep.isPrefixOf (c :: cs) then some ([], (c :: cs).drop sep.length)
    else (splitOnce sep cs).map fun pr => (c :: pr.1, pr.2)

/-- `_split_artist_title`: split "Artist - Title" (fall back to a bare
hyphen, then to title-only). -/
def splitArtistTitle (track : String) : String × String :=
  match splitOnce [' ', '-', ' '] track.toList with
  | some (x, y) => (String.mk (pyTrim x), String.mk (pyTrim y))
  | none =>
    match splitOnce ['-'] track.toList with
    | some (x, y) => (String.mk (pyTrim x), String.mk (pyTrim y))
    | none => ("", pyStrip track)

/-- Python `s.split(',')` on a character list. -/
def splitComma : List Char → List (List Char)
  | [] => [[]]
  | c :: cs =>
    if c = ',' then [] :: splitComma cs
    else
      match splitComma cs with
      | [] => [[c]]
      | p :: ps => (c :: p) :: ps

/-- `_split_stations`: split on commas, strip each part, drop empties,
collect as a set. -/
def splitStations (s : String) : Finset String :=
  ((((splitComma s.toList).map pyTrim).filter fun p => p ≠ []).map
    String.mk).toFinset

/-- `", ".flatten(tokens)` on an ordered token list. -/
def joinTokens : List String → List Char
  | [] => []
  | [x] => x.toList
  | x :: y :: rest => x.toList ++ ',' :: ' ' :: joinTokens (y :: rest)

/-- `", ".flatten(sorted(station_set))`. -/
def joinStations (X : Finset String) : String :=
  String.mk (joinTokens (X.sort (· ≤ ·)))

/-- Well-formedness of one station token as produced by
`_split_stations`: nonempty, strip-invariant, comma-free.  Exactly
these properties make `", ".join(sorted(set))` round-trip. -/
def goodToken (s : String) : Prop :=
  s ≠ "" ∧ pyStrip s = s ∧ ',' ∉ s.toList

/-- The merger's FirstSeen update:
`first_seen = str(cell or date_str); if first_seen > date_str: ← date_str`. -/
def stepFS (d fs : String) : String :=
  let fs0 := if fs = "" then d else fs
  if d < fs0 then d else fs0

/-- The merger's LastSeen update:
`last_seen = str(cell or date_str); if last_seen < date_str: ← date_str`. -/
def stepLS (d ls : String) : String :=
  let ls0 := if ls = "" then d else ls
  if ls0 < d then d else ls0

/-- Python truthiness of the optional incoming BPM cell:
`bpm_new is not None and str(bpm_new) != ""`. -/
def strTruthy : Option String → Prop
  | some v => v ≠ ""
  | none => False

instance : DecidablePred strTruthy := fun o => by
  cases o <;> simp [strTruthy] <;> infer_instance

/-- Incoming station set, date, BPM and Key cells of one per-run row. -/
structure UpdParams where
  today : Finset String
  bpmN : Option String
  keyN : Option String
  deriving DecidableEq

/-- In-place update of an existing catalog row (the `key in idx_map`
branch of `_update_cumulative_playlist`): union stations, extend dates,
back-fill BPM/Key only when currently empty. -/
def applyUpdate (d : String) (p : UpdParams) (r : CumRow) : CumRow :=
  { r with
    stations := joinStations (splitStations r.stations ∪ p.today)
    firstSeen := stepFS d r.firstSeen
    lastSeen := stepLS d r.lastSeen
    bpm := if r.bpm = "" ∧ strTruthy p.bpmN then p.bpmN.getD "" else r.bpm
    keyCol :=
      if r.keyCol = "" ∧ strTruthy p.keyN then p.keyN.getD "" else r.keyCol }

/-- Fresh catalog row for a new key (the append branch). -/
def newRow (a t d : String) (p : UpdParams) : CumRow :=
  { artist := a
    title := t
    stations := if p.today = ∅ then "" else joinStations p.today
    firstSeen := d
    lastSeen := d
    bpm := p.bpmN.getD ""
    keyCol := p.keyN.getD "" }

/-- Update the first row whose key is equal, else append a new row
(the `idx_map` lookup made explicit on the row list). -/
def mergeInto (d k a t : String) (p : UpdParams) : List CumRow → List CumRow
  | [] => [newRow a t d p]
  | r :: rs =>
    if catKey r = k then applyUpdate d p r :: rs
    else r :: mergeInto d k a t p rs

/-- Artist/title of one per-run row after stripping and the
`Track`-splitting fallback; `none` when the row is skipped. -/
def rowIdent (row : InRow) : Option (String × String) :=
  let a0 := pyStrip row.artist
  let t0 := pyStrip row.title
  let at1 := if a0 = "" ∧ t0 = "" then splitArtistTitle row.track else (a0, t0)
  if at1.1 = "" ∧ at1.2 = "" then none else some at1

/-- Process one per-run row against the catalog list. -/
def processRow (d : String) (c : List CumRow) (row : InRow) : List CumRow :=
  match rowIdent row with
  | none => c
  | some (a, t) =>
    mergeInto d (normalizeKey2 a t) a t
      ⟨splitStations row.stations, row.bpm, row.keyVal⟩ c

/-- Apply all rows of the per-run table, in order. -/
def mergeTable (c : List CumRow) (t : List InRow) (d : String) : List CumRow :=
  t.foldl (processRow d) c

/-- The final presentation sort:
`sort_values(['LastSeen','Artist','Title'], ascending=[False,True,True])`
(a stable lexicographic sort in pandas). -/
def rowLe (x y : CumRow) : Prop :=
  y.lastSeen < x.lastSeen ∨
    (x.lastSeen = y.lastSeen ∧
      (x.artist < y.artist ∨ (x.artist = y.artist ∧ x.title ≤ y.title)))

instance : DecidableRel rowLe := fun x y => by
  unfold rowLe; infer_instance

def sortCatalog (c : List CumRow) : List CumRow := c.insertionSort rowLe

/-- One full merge run on an in-memory catalog: process the per-run
table, then sort for readability. -/
def mergeCatalog (c : List CumRow) (t : List InRow) (d : String) :
    List CumRow :=
  sortCatalog (mergeTable c t d)

/-- Contents of a CSV file on disk: either parseable rows or corrupt
data on which `pd.read_csv` raises. -/
inductive CsvFile where
  | corrupt : CsvFile
  | table : List CumRow → CsvFile
  deriving DecidableEq

/-- The `Cumulative` directory: the stable catalog file and the dated
snapshot of the current run (either may be absent). -/
structure CumulativeDir where
  stable : Option CsvFile
  snapshot : Option CsvFile
  deriving DecidableEq

/-- `_update_cumulative_playlist` as a file-system transition: load the
stable file (raising on corrupt contents), merge, then write the merged
catalog to both the stable path and the dated snapshot.  An `error`
result models the uncaught `pd.read_csv` exception, raised before any
write happens. -/
def runMerge (fs : CumulativeDir) (t : List InRow) (d : String) :
    Except Unit CumulativeDir :=
  match fs.stable with
  | some CsvFile.corrupt => Except.error ()
  | some (CsvFile.table rows) =>
    let out := mergeCatalog rows t d
    Except.ok { stable := some (CsvFile.table out)
                snapshot := some (CsvFile.table out) }
  | none =>
    let out := mergeCatalog [] t d
    Except.ok { stable := some (CsvFile.table out)
                snapshot := some (CsvFile.table out) }

/-- The durable state after a run: unchanged when the run raised. -/
def afterRun (fs : CumulativeDir) (t : List InRow) (d : String) :
    CumulativeDir :=
  match runMerge fs t d with
  | Except.ok fs2 => fs2
  | Except.error _ => fs

/-- Pairwise-distinct catalog keys (the well-formedness the merger
itself maintains). -/
def UniqueKeys (c : List CumRow) : Prop :=
  c.Pairwise fun r s => catKey r ≠ catKey s

/-- First catalog row carrying the given key (`idx_map[k]`). -/
def findKey (c : List CumRow) (k : String) : Option CumRow :=
  c.find? fun r => catKey r = k

/-! ## Fuzzy resolver (`match_playlist_rows` and friends)

Durations and fuzzy scores are `ℚ`.  The third-party scorer
(`fuzz.token_set_ratio`) is an external library, so `matchOne` is
parametrised by an arbitrary scoring function; `process.extract` is
modelled as a stable sort by score (descending) followed by `take 8`,
which is all the downstream code relies on. -/

/-- A parsed playlist row (`TrackRow` dataclass). -/
structure TrackRowL where
  artist : String
  title : String
  duration : Option ℚ
  bpm : Option ℚ
  musicalKey : Option String
  deriving DecidableEq

/-- `TrackRow.key()`. -/
def rowKey (r : TrackRowL) : String := normalize_key r.artist r.title

/-- Metadata of one indexed library file (`index["tracks"][path]`). -/
structure LibTrack where
  keyStr : String
  duration : Option ℚ
  tagBpm : Option ℚ
  tagKey : Option String
  deriving DecidableEq

/-- The library index: `tracks` (path → metadata) and the reverse map
`by_key` (canonical key → candidate paths).  Python dicts have unique
keys; lookup is first-match on the association list. -/
structure LibIndex where
  tracks : List (String × LibTrack)
  byKey : List (String × List String)
  deriving DecidableEq

/-- Association-list lookup (`dict.get`). -/
def lookupA {β : Type} (l : List (String × β)) (k : String) : Option β :=
  (l.find? fun e => e.1 = k).map Prod.snd

/-- `library_index["tracks"].get(sp, {}).get("duration")`. -/
def trackDuration (idx : LibIndex) (sp : String) : Option ℚ :=
  match lookupA idx.tracks sp with
  | some m => m.duration
  | none => none

/-- Inner fold of `best_path_for_key`: keep the path whose recorded
duration is strictly closer to the target (`none` models the initial
`float("inf")`). -/
def bestPathStep (idx : LibIndex) (td : ℚ) (acc : String × Option ℚ)
    (sp : String) : String × Option ℚ :=
  match trackDuration idx sp with
  | some dur =>
    let delta := |dur - td|
    match acc.2 with
    | none => (sp, some delta)
    | some bd => if delta < bd then (sp, some delta) else acc
  | none => acc

/-- `best_path_for_key(k, target_dur)`. -/
def bestPathForKey (idx : LibIndex) (k : String) (target : Option ℚ) :
    Option String :=
  match lookupA idx.byKey k with
  | none => none
  | some [] => none
  | some (p0 :: rest) =>
    match target with
    | none => some p0
    | some td => some ((p0 :: rest).foldl (bestPathStep idx td) (p0, none)).1

/-- Ordering used to model `process.extract`: score descending. -/
def scoreGe (x y : String × ℚ) : Prop := y.2 ≤ x.2

instance : DecidableRel scoreGe := fun x y => by
  unfold scoreGe; infer_instance

/-- `process.extract(key, keys, scorer=..., limit=8)`: score every key,
stable-sort by score descending, keep the top eight. -/
def extractTop (score : String → String → ℚ) (q : String)
    (keys : List String) : List (String × ℚ) :=
  ((keys.map fun k => (k, score q k)).insertionSort scoreGe).take 8

/-- The duration branch's replacement test:
`delta < (best_delta or inf) or (abs(delta - (best_delta or inf)) < 0.001
and score > chosen_score)`, with `none` standing for infinity. -/
def durUpdateCond (bdInf : Option ℚ) (delta chosenScore candScore : ℚ) :
    Prop :=
  match bdInf with
  | none => True
  | some bd =>
    delta < bd ∨ (|delta - bd| < 1 / 1000 ∧ chosenScore < candScore)

instance (bdInf : Option ℚ) (delta chosenScore candScore : ℚ) :
    Decidable (durUpdateCond bdInf delta chosenScore candScore) := by
  cases bdInf <;> simp [durUpdateCond] <;> infer_instance

/-- State of the candidate-selection loop in `match_playlist_rows`. -/
structure SelState where
  chosenKey : Option String
  chosenPath : Option String
  chosenScore : ℚ
  bestDelta : Option ℚ
  deriving DecidableEq

/-- One iteration of the candidate loop.  `bestDelta = none` models
both Python's `None` and `float("inf")` (they behave identically in
every use).  Note the Python quirk: `(best_delta or float("inf"))`
treats a stored `0.0` as falsy, i.e. as infinity. -/
def selStep (idx : LibIndex) (rowDur : Option ℚ) (st : SelState)
    (cand : String × ℚ) : SelState :=
  let pth := bestPathForKey idx cand.1 rowDur
  let fallback :=
    if st.chosenScore < cand.2 then
      { chosenKey := some cand.1, chosenPath := pth,
        chosenScore := cand.2, bestDelta := st.bestDelta }
    else st
  match rowDur, pth with
  | some td, some sp =>
    match trackDuration idx sp with
    | some dur =>
      let delta := |dur - td|
      let bdInf : Option ℚ :=
        match st.bestDelta with
        | none => none
        | some bd => if bd = 0 then none else some bd
      if durUpdateCond bdInf delta st.chosenScore cand.2 then
        { chosenKey := some cand.1, chosenPath := some sp,
          chosenScore := cand.2, bestDelta := some delta }
      else st
    | none => fallback
  | _, _ => fallback

/-- The full candidate-selection loop with its initial state
(`chosen_score = -1.0`). -/
def selectState (idx : LibIndex) (rowDur : Option ℚ)
    (cands : List (String × ℚ)) : SelState :=
  cands.foldl (selStep idx rowDur) ⟨none, none, -1, none⟩

/-- `best_delta is not None and best_delta <= 4.0` (with `none` also
standing for infinity). -/
def deltaLe4 : Option ℚ → Prop
  | some bd => bd ≤ 4
  | none => False

instance : DecidablePred deltaLe4 := fun o => by
  cases o <;> simp [deltaLe4] <;> infer_instance

/-- The candidate list after the `threshold - 12` filter window. -/
def filteredCands (score : String → String → ℚ) (idx : LibIndex)
    (threshold : ℚ) (row : TrackRowL) : List (String × ℚ) :=
  (extractTop score (rowKey row) (idx.byKey.map Prod.fst)).filter fun c =>
    max 0 (threshold - 12) ≤ c.2

/-- Body of `match_playlist_rows` for one row: exact key hit, empty
library, candidate filtering (`threshold - 12` window), duration-aware
selection, and the acceptance/rescue decision. -/
def matchOne (score : String → String → ℚ) (idx : LibIndex)
    (threshold : ℚ) (row : TrackRowL) : TrackRowL × Option String × ℚ :=
  let keys := idx.byKey.map Prod.fst
  let key := rowKey row
  match lookupA idx.byKey key with
  | some _ => (row, bestPathForKey idx key row.duration, 100)
  | none =>
    if keys = [] then (row, none, 0)
    else
      let cands := filteredCands score idx threshold row
      if cands = [] then (row, none, 0)
      else
        let st := selectState idx row.duration cands
        if st.chosenKey ≠ none ∧ threshold ≤ st.chosenScore then
          (row, st.chosenPath, st.chosenScore)
        else if deltaLe4 st.bestDelta ∧ threshold - 8 ≤ st.chosenScore then
          (row, st.chosenPath, max st.chosenScore (threshold - 2))
        else (row, none, if 0 ≤ st.chosenScore then st.chosenScore else 0)

/-- `match_playlist_rows`: one result per row, in order. -/
def matchPlaylistRows (score : String → String → ℚ) (idx : LibIndex)
    (threshold : ℚ) (rows : List TrackRowL) :
    List (TrackRowL × Option String × ℚ) :=
  rows.map (matchOne score idx threshold)

/-- One record of the VirtualDJ metadata index
(`build_vdj_meta_index`). -/
structure VdjMeta where
  tidalId : Option String
  bpm : Option ℚ
  keyVal : Option String
  deriving DecidableEq

/-- First step of `enrich_rows_with_meta`: missing BPM from the
VirtualDJ metadata index. -/
def enrichVdjBpm (vdj : List (String × VdjMeta)) (k : String)
    (r : TrackRowL) : TrackRowL :=
  if r.bpm = none then
    match lookupA vdj k with
    | some m => { r with bpm := m.bpm }
    | none => r
  else r

/-- Second step: missing musical key from the VirtualDJ index. -/
def enrichVdjKey (vdj : List (String × VdjMeta)) (k : String)
    (r1 : TrackRowL) : TrackRowL :=
  if ¬ strTruthy r1.musicalKey then
    match lookupA vdj k with
    | some m =>
      if strTruthy m.keyVal then { r1 with musicalKey := m.keyVal } else r1
    | none => r1
  else r1

/-- Third step: still-missing BPM/key from the tags of the first
library file under the same normalized key. -/
def enrichLib (idx : LibIndex) (k : String) (r2 : TrackRowL) : TrackRowL :=
  if r2.bpm = none ∨ ¬ strTruthy r2.musicalKey then
    match lookupA idx.byKey k with
    | some (p0 :: _) =>
      let meta := lookupA idx.tracks p0
      let r3 :=
        if r2.bpm = none then { r2 with bpm := meta.bind LibTrack.tagBpm }
        else r2
      if ¬ strTruthy r3.musicalKey then
        match meta.bind LibTrack.tagKey with
        | some tk => if tk ≠ "" then { r3 with musicalKey := some tk } else r3
        | none => r3
      else r3
    | _ => r2
  else r2

/-- `enrich_rows_with_meta` for one row: fill missing BPM/key from the
VirtualDJ index, then from the first library file under the same key. -/
def enrichOne (idx : LibIndex) (vdj : List (String × VdjMeta))
    (r : TrackRowL) : TrackRowL :=
  enrichLib idx (rowKey r) (enrichVdjKey vdj (rowKey r)
    (enrichVdjBpm vdj (rowKey r) r))

/-- `MatchResult` dataclass. -/
structure MatchResultL where
  row : TrackRowL
  localPath : Option String
  confidence : ℚ
  tidalId : Option String
  deriving DecidableEq

/-- `resolve_matches_for_rows`: enrich, match, and attach a TIDAL id to
rows without a local path. -/
def resolveMatchesForRows (score : String → String → ℚ) (idx : LibIndex)
    (tidal : List (String × String)) (threshold : ℚ)
    (vdj : List (String × VdjMeta)) (rows : List TrackRowL) :
    List MatchResultL :=
  let rows2 := rows.map (enrichOne idx vdj)
  (rows2.map (matchOne score idx threshold)).map fun m =>
    { row := m.1
      localPath := m.2.1
      confidence := m.2.2
      tidalId :=
        match m.2.1 with
        | none => lookupA tidal (rowKey m.1)
        | some _ => none }

/-! ## Playlist exporters

Files are modelled by their line lists (both exporters emit
newline-joined lines with a trailing newline). -/

/-- `_escape_xml_attr`: sequential `str.replace` calls. -/
def escapeXmlAttr (s : String) : String :=
  let l1 := replaceSub ['&'] ['&', 'a', 'm', 'p', ';'] s.toList
  let l2 := replaceSub ['"'] ['&', 'q', 'u', 'o', 't', ';'] l1
  let l3 := replaceSub ['<'] ['&', 'l', 't', ';'] l2
  String.mk (replaceSub ['>'] ['&', 'g', 't', ';'] l3)

/-- `build_generic_netsearch_uri`. -/
def buildGenericNetsearchUri (r : TrackRowL) : String :=
  "search://" ++ pyStrip r.artist ++ "/" ++ pyStrip r.title ++ "/"

/-- `build_song_paths_for_vdj`: local path, else netsearch URI, else
optionally a generic search URI, else skip. -/
def buildSongPaths (ms : List MatchResultL) (useGeneric : Bool) :
    List String :=
  ms.filterMap fun m =>
    match m.localPath with
    | some pth => some pth
    | none =>
      match m.tidalId with
      | some tid => some ("netsearch://" ++ tid)
      | none =>
        if useGeneric then some (buildGenericNetsearchUri m.row) else none

/-- One `<song .../>` line of a `.vdjfolder`. -/
def songLine (p : String) : String :=
  "  <song path=\"" ++ escapeXmlAttr p ++ "\" />"

/-- `write_vdjfolder_paths`, as the list of written lines. -/
def writeVdjLines (paths : List String) : List String :=
  "<VirtualFolder>" :: (paths.map songLine) ++ ["</VirtualFolder>"]

/-- The capture of `path="([^"]+)"` when the `[^>]*` run is split at
position `j` (the scanned region must stay clear of `>`). -/
def songPathAt (m : List Char) (j : Nat) : Option (List Char) :=
  if (m.take j).all (fun c => !(c = '>')) &&
      List.isPrefixOf ['p', 'a', 't', 'h', '=', '"'] (m.drop j) then
    let after := (m.drop j).drop 6
    let cap := after.takeWhile fun c => !(c = '"')
    if cap ≠ [] ∧ (after.drop cap.length).head? = some '"' then some cap
    else none
  else none

/-- All captures reachable at some split point of the `[^>]*` run. -/
def songPathCandidates (m : List Char) : List (List Char) :=
  (List.range (m.length + 1)).filterMap (songPathAt m)

/-- Try `<song\s+[^>]*path="([^"]+)"` anchored at the current position;
the greedy `[^>]*` yields the last viable capture. -/
def parseSongAt (l : List Char) : Option (List Char) :=
  if List.isPrefixOf ['<', 's', 'o', 'n', 'g'] l then
    match l.drop 5 with
    | c :: cs =>
      if isSpacePy c then (songPathCandidates (c :: cs)).getLast? else none
    | [] => none
  else none

/-- `re.search` of the song-path pattern over one line. -/
def parseSongLineGo : Nat → List Char → Option (List Char)
  | 0, _ => none
  | _ + 1, [] => none
  | fuel + 1, c :: cs =>
    match parseSongAt (c :: cs) with
    | some cap => some cap
    | none => parseSongLineGo fuel cs

def parseSongLine (line : String) : Option String :=
  (parseSongLineGo (line.toList.length + 1) line.toList).map String.mk

/-- `parse_vdjfolder_paths` on the file's lines. -/
def parseVdjLines (lines : List String) : List String :=
  lines.filterMap parseSongLine

/-- The three write modes of both exporters. -/
inductive ExportMode where
  | replace : ExportMode
  | add : ExportMode
  | saveAsNew : ExportMode
  deriving DecidableEq

/-- `export_vdjfolder_mode`: the lines written to the target file.
`existing` is the current content of `list_name.vdjfolder` (if any);
`save_as_new` writes the same content under another name. -/
def exportVdjfolderMode (ms : List MatchResultL)
    (existing : Option (List String)) (mode : ExportMode)
    (useGeneric : Bool) : List String :=
  let newPaths := buildSongPaths ms useGeneric
  match mode with
  | ExportMode.saveAsNew => writeVdjLines newPaths
  | ExportMode.add =>
    match existing with
    | none => writeVdjLines newPaths
    | some lines =>
      let ex := parseVdjLines lines
      writeVdjLines (ex ++ newPaths.filter fun pth => pth ∉ ex)
  | ExportMode.replace => writeVdjLines newPaths

/-- `build_m3u_entries`: (`#EXTINF`, path) pairs for locally resolved results. -/
def buildM3uEntries (ms : List MatchResultL) :
    List (String × String) :=
  ms.filterMap fun m =>
    match m.localPath with
    | some pth =>
      some ("#EXTINF:-1," ++ m.row.artist ++ " - " ++ m.row.title, pth)
    | none => none

/-- `write_m3u_from_entries`, as the list of written lines. -/
def writeM3uLines (entries : List (String × String)) : List String :=
  "#EXTM3U" :: (entries.map fun e => [e.1, e.2]).flatten

def startsWithHash (s : String) : Bool :=
  match s.toList with
  | c :: _ => c = '#'
  | [] => false

/-- `parse_m3u_paths`: strip lines, drop blanks and comments. -/
def parseM3uLines (lines : List String) : List String :=
  (lines.map pyStrip).filter fun s => ¬ (s = "" ∨ startsWithHash s)

/-- `export_m3u8_mode`: in `add` mode, append the entry pairs whose
path is not already in the file, keeping the existing text. -/
def exportM3u8Mode (ms : List MatchResultL)
    (existing : Option (List String)) (mode : ExportMode) : List String :=
  let entries := buildM3uEntries ms
  match mode with
  | ExportMode.saveAsNew => writeM3uLines entries
  | ExportMode.add =>
    match existing with
    | none => writeM3uLines entries
    | some lines =>
      let exPaths := parseM3uLines lines
      let toApp := entries.filter fun e => e.2 ∉ exPaths
      lines ++ (toApp.map fun e => [e.1, e.2]).flatten
  | ExportMode.replace => writeM3uLines entries

/-- A path free of XML-special characters and nonempty: for these,
`_escape_xml_attr` is the identity and the `.vdjfolder` round trip is
faithful. -/
def cleanPath (p : String) : Prop :=
  p ≠ "" ∧ '&' ∉ p.toList ∧ '"' ∉ p.toList ∧ '<' ∉ p.toList ∧
    '>' ∉ p.toList

/-- A path an M3U8 file stores faithfully: nonempty, strip-invariant
and not a comment line. -/
def cleanM3uPath (p : String) : Prop :=
  p ≠ "" ∧ pyStrip p = p ∧ startsWithHash p = false

/-! ## Verification predicates for the merger -/

/-- The update parameters extracted from one per-run row. -/
def rowParams (row : InRow) : UpdParams :=
  ⟨splitStations row.stations, row.bpm, row.keyVal⟩

/-- A catalog row that has fully absorbed one per-run row's data under
run date `d`: canonical serialized stations containing the incoming
set, dates fixed by the date steps, BPM/Key non-empty whenever the
incoming row supplies a value. -/
def RowAbsorbed (d : String) (p : UpdParams) (r : CumRow) : Prop :=
  joinStations (splitStations r.stations) = r.stations ∧
  p.today ⊆ splitStations r.stations ∧
  stepFS d r.firstSeen = r.firstSeen ∧
  stepLS d r.lastSeen = r.lastSeen ∧
  (strTruthy p.bpmN → r.bpm ≠ "") ∧
  (strTruthy p.keyN → r.keyCol ≠ "")

/-- The catalog has absorbed one per-run row (or the row is skipped). -/
def Absorbs (d : String) (row : InRow) (c : List CumRow) : Prop :=
  match rowIdent row with
  | none => True
  | some (a, t) =>
    ∃ r, findKey c (normalizeKey2 a t) = some r ∧
      RowAbsorbed d (rowParams row) r

/-- Every row's FirstSeen is at most its LastSeen (string order). -/
def DatesOK (c : List CumRow) : Prop :=
  ∀ r ∈ c, r.firstSeen ≤ r.lastSeen

/-- A sequence of merge runs applied to a catalog. -/
def mergeSeq (c : List CumRow) (runs : List (List InRow × String)) :
    List CumRow :=
  runs.foldl (fun acc m => mergeCatalog acc m.1 m.2) c

/-! ## Concrete instances used by witnesses and counterexamples -/

/-- Deciding XML-cleanliness of a concrete path. -/
instance : DecidablePred cleanPath := fun p => by
  unfold cleanPath
  infer_instance

/-- Deciding M3U-safety of a concrete path. -/
instance : DecidablePred cleanM3uPath := fun p => by
  unfold cleanM3uPath
  infer_instance

def wTrkC3 : LibTrack := { keyStr := "a - x", duration := some 200, tagBpm := none, tagKey := none }

def wIdxC3 : LibIndex := { tracks := [("p1", wTrkC3)], byKey := [("a - x", ["p1"])] }

def wScore75 : String → String → ℚ := fun _ _ => 75

def wRowC3 : TrackRowL := { artist := "b", title := "y", duration := some 201, bpm := none, musicalKey := none }

def wScore90 : String → String → ℚ := fun _ _ => 90

def wRowC4a : InRow := { artist := "A", title := "B & C", track := "", stations := "P3", bpm := none, keyVal := none }

def wRowC4b : InRow := { artist := "A", title := "B and C", track := "", stations := "P4", bpm := none, keyVal := none }

def wRowIn : InRow := { artist := "Artist", title := "Song", track := "", stations := "P3", bpm := none, keyVal := none }

def wRowCat : CumRow := { artist := "Artist", title := "Song", stations := "P3", firstSeen := "2025-01-01", lastSeen := "2025-01-02", bpm := "", keyCol := "" }

def wTrkC7a : LibTrack := { keyStr := "artist - song", duration := some 200, tagBpm := none, tagKey := none }

def wTrkC7b : LibTrack := { keyStr := "artist - song", duration := some 100, tagBpm := none, tagKey := none }

def wIdxC7 : LibIndex := { tracks := [("p1", wTrkC7a), ("p2", wTrkC7b)], byKey := [("artist - song", ["p1", "p2"])] }

def wRowC7 : TrackRowL := { artist := "Artist", title := "Song", duration := some 101, bpm := none, musicalKey := none }

def wRowPlain : TrackRowL := { artist := "x", title := "y", duration := none, bpm := none, musicalKey := none }

def wMAmp : MatchResultL := { row := wRowPlain, localPath := some "a&b", confidence := 100, tidalId := none }

def wM8 : MatchResultL := { row := wRowPlain, localPath := some "new.mp3", confidence := 100, tidalId := none }

/-! ## String infrastructure lemmas -/

theorem dropWhile_idem {α : Type} (p : α → Bool) (l : List α) :
    List.dropWhile p (List.dropWhile p l) = List.dropWhile p l := by
  have h := List.head?_dropWhile_not p l
  cases hd : List.dropWhile p l with
  | nil => rfl
  | cons a as =>
    rw [hd] at h
    have h2 : p a = false := by simpa using h
    simp [List.dropWhile_cons, h2]

theorem trimStart_idem (l : List Char) :
    trimStart (trimStart l) = trimStart l :=
  dropWhile_idem isSpacePy l

theorem trimEnd_pref (l : List Char) : trimEnd l <+: l := by
  have h : l.reverse.dropWhile isSpacePy <:+ l.reverse :=
    List.dropWhile_suffix isSpacePy
  have h2 := List.reverse_prefix.mpr h
  simpa [trimEnd] using h2

theorem trimEnd_idem (l : List Char) : trimEnd (trimEnd l) = trimEnd l := by
  unfold trimEnd
  rw [List.reverse_reverse, dropWhile_idem]

theorem trimStart_head_not (l : List Char) (a : List Char) (c : Char)
    (h : trimStart l = c :: a) : isSpacePy c = false := by
  have hh := List.head?_dropWhile_not isSpacePy l
  rw [show List.dropWhile isSpacePy l = c :: a from h] at hh
  simpa using hh

theorem trimStart_trimEnd_trimStart (l : List Char) :
    trimStart (trimEnd (trimStart l)) = trimEnd (trimStart l) := by
  cases h : trimEnd (trimStart l) with
  | nil => rfl
  | cons a as =>
    have hpre : a :: as <+: trimStart l := h ▸ trimEnd_pref (trimStart l)
    obtain ⟨t, ht⟩ := hpre
    have hts : trimStart (trimStart l) = a :: (as ++ t) := by
      rw [trimStart_idem, ← ht]
      simp
    have ha : isSpacePy a = false :=
      trimStart_head_not (trimStart l) (as ++ t) a hts
    simp [trimStart, List.dropWhile_cons, ha]

theorem pyTrim_idem (l : List Char) : pyTrim (pyTrim l) = pyTrim l := by
  unfold pyTrim
  rw [trimStart_trimEnd_trimStart, trimEnd_idem]

theorem mem_trimStart {a : Char} {l : List Char} (h : a ∈ trimStart l) :
    a ∈ l :=
  (List.dropWhile_suffix isSpacePy).subset h

theorem mem_trimEnd {a : Char} {l : List Char} (h : a ∈ trimEnd l) :
    a ∈ l :=
  (trimEnd_pref l).subset h

theorem mem_pyTrim {a : Char} {l : List Char} (h : a ∈ pyTrim l) : a ∈ l :=
  mem_trimStart (mem_trimEnd h)

theorem pyTrim_cons_space (l : List Char) : pyTrim (' ' :: l) = pyTrim l := by
  unfold pyTrim trimStart
  simp [List.dropWhile_cons, isSpacePy]

theorem string_mk_toList (s : String) : String.mk s.toList = s := rfl

theorem toList_ne_nil_of_ne_empty {s : String} (h : s ≠ "") :
    s.toList ≠ [] := by
  intro hc
  apply h
  have h1 : s = String.mk s.toList := rfl
  rw [h1, hc]

theorem mk_ne_empty_of_ne_nil {l : List Char} (h : l ≠ []) :
    String.mk l ≠ "" := by
  intro hc
  apply h
  have : (String.mk l).toList = ("" : String).toList := by rw [hc]
  simpa using this

/-! ## splitComma / joinTokens round trip -/

theorem splitComma_ne_nil (l : List Char) : splitComma l ≠ [] := by
  cases l with
  | nil => simp [splitComma]
  | cons c cs =>
    simp only [splitComma]
    split
    · simp
    · cases h : splitComma cs <;> simp

theorem mem_splitComma_no_comma (l : List Char) :
    ∀ piece ∈ splitComma l, ',' ∉ piece := by
  induction l with
  | nil =>
    intro piece hp
    simp [splitComma] at hp
    simp [hp]
  | cons c cs ih =>
    intro piece hp
    by_cases hc : c = ','
    · rw [show splitComma (c :: cs) = [] :: splitComma cs by
        simp [splitComma, hc]] at hp
      rcases List.mem_cons.mp hp with h | h
      · simp [h]
      · exact ih piece h
    · cases hsc : splitComma cs with
      | nil => exact absurd hsc (splitComma_ne_nil cs)
      | cons p ps =>
        rw [show splitComma (c :: cs) = (c :: p) :: ps by
          simp [splitComma, hc, hsc]] at hp
        rcases List.mem_cons.mp hp with h | h
        · subst h
          intro hmem
          rcases List.mem_cons.mp hmem with h | h
          · exact hc h.symm
          · exact ih p (hsc ▸ List.mem_cons_self p ps) h
        · exact ih piece (hsc ▸ List.mem_cons.mpr (Or.inr h))

theorem splitComma_append (a r : List Char) (h : ',' ∉ a) :
    splitComma (a ++ ',' :: r) = a :: splitComma r := by
  induction a with
  | nil => simp [splitComma]
  | cons c a2 ih =>
    have hc : ¬ c = ',' := fun hcc => h (hcc ▸ List.mem_cons_self c a2)
    have ih2 := ih fun hm => h (List.mem_cons.mpr (Or.inr hm))
    show splitComma (c :: (a2 ++ ',' :: r)) = (c :: a2) :: splitComma r
    simp only [splitComma, if_neg hc, ih2]

theorem splitComma_no_comma (a : List Char) (h : ',' ∉ a) :
    splitComma a = [a] := by
  induction a with
  | nil => simp [splitComma]
  | cons c a2 ih =>
    have hc : ¬ c = ',' := fun hcc => h (hcc ▸ List.mem_cons_self c a2)
    have ih2 := ih fun hm => h (List.mem_cons.mpr (Or.inr hm))
    simp only [splitComma, if_neg hc, ih2]

theorem map_pyTrim_splitComma_space (J : List Char) :
    (splitComma (' ' :: J)).map pyTrim = (splitComma J).map pyTrim := by
  cases h : splitComma J with
  | nil => exact absurd h (splitComma_ne_nil J)
  | cons p ps =>
    rw [show splitComma (' ' :: J) = (' ' :: p) :: ps by
      simp [splitComma, h]]
    simp [pyTrim_cons_space]

/-- Tokens of a station list written by `", ".join` parse back
unchanged when every token is good. -/
theorem splitTokens_join (L : List String)
    (h : ∀ x ∈ L, goodToken x) :
    ((((splitComma (joinTokens L)).map pyTrim).filter fun p =>
      p ≠ []).map String.mk) = L := by
  induction L with
  | nil => simp [joinTokens, splitComma, pyTrim, trimStart, trimEnd]
  | cons x rest ih =>
    have hx := h x (List.mem_cons_self x rest)
    obtain ⟨hx1, hx2, hx3⟩ := hx
    have hxt : pyTrim x.toList = x.toList := congrArg String.toList hx2
    have hxn : x.toList ≠ [] := toList_ne_nil_of_ne_empty hx1
    cases rest with
    | nil =>
      rw [show joinTokens [x] = x.toList from rfl,
        splitComma_no_comma x.toList hx3]
      simp only [List.map_cons, List.map_nil]
      rw [hxt, List.filter_cons_of_pos (by simpa using hxn)]
      simp only [List.filter_nil, List.map_cons, List.map_nil]
      rw [show String.mk x.toList = x from rfl]
    | cons y rest2 =>
      have ih2 := ih fun z hz => h z (List.mem_cons.mpr (Or.inr hz))
      rw [show joinTokens (x :: y :: rest2) =
        x.toList ++ ',' :: ' ' :: joinTokens (y :: rest2) from rfl,
        splitComma_append x.toList _ hx3]
      simp only [List.map_cons, map_pyTrim_splitComma_space, hxt]
      rw [List.filter_cons_of_pos (by simpa using hxn)]
      simp only [List.map_cons, string_mk_toList]
      rw [ih2]

theorem goodToken_mem_splitStations (s : String) :
    ∀ x ∈ splitStations s, goodToken x := by
  intro x hx
  unfold splitStations at hx
  rw [List.mem_toFinset] at hx
  simp only [List.mem_map, List.mem_filter] at hx
  obtain ⟨tp, ⟨htp, hne⟩, hmk⟩ := hx
  obtain ⟨piece, hpiece, htrim⟩ := htp
  have hne2 : tp ≠ [] := by simpa using hne
  refine ⟨?_, ?_, ?_⟩
  · exact hmk ▸ mk_ne_empty_of_ne_nil hne2
  · rw [← hmk]
    show String.mk (pyTrim (String.mk tp).toList) = String.mk tp
    rw [show (String.mk tp).toList = tp from rfl, ← htrim, pyTrim_idem]
  · rw [← hmk]
    show ',' ∉ tp
    intro hc
    rw [← htrim] at hc
    exact mem_splitComma_no_comma s.toList piece hpiece (mem_pyTrim hc)

/-- The central round trip: a good station set serialized by
`", ".join(sorted(·))` parses back to itself. -/
theorem splitStations_joinStations (X : Finset String)
    (h : ∀ x ∈ X, goodToken x) : splitStations (joinStations X) = X := by
  unfold splitStations joinStations
  rw [show (String.mk (joinTokens (X.sort (· ≤ ·)))).toList =
    joinTokens (X.sort (· ≤ ·)) from rfl]
  rw [splitTokens_join _ fun x hx =>
    h x ((Finset.mem_sort (α := String) (· ≤ ·)).mp hx)]
  exact Finset.sort_toFinset _ X

/-! ## Date-step lemmas -/

theorem empty_le_string (s : String) : ("" : String) ≤ s := by
  rcases eq_or_ne s "" with h | h
  · exact h ▸ le_rfl
  · refine le_of_lt ?_
    rw [String.lt_iff_toList_lt]
    cases hc : s.toList with
    | nil => exact absurd hc (toList_ne_nil_of_ne_empty h)
    | cons a as => exact List.nil_lt_cons a as

theorem stepFS_self (d : String) : stepFS d d = d := by
  unfold stepFS
  simp

theorem stepLS_self (d : String) : stepLS d d = d := by
  unfold stepLS
  simp

theorem stepFS_idem (d x : String) : stepFS d (stepFS d x) = stepFS d x := by
  by_cases hx : x = ""
  · subst hx
    rw [show stepFS d "" = d by simp [stepFS], stepFS_self]
  · unfold stepFS
    simp only [if_neg hx]
    by_cases hd : d < x
    · simp [hd, if_pos hd]
    · simp only [if_neg hd, if_neg hx, if_neg hd]

theorem stepLS_idem (d x : String) : stepLS d (stepLS d x) = stepLS d x := by
  by_cases hx : x = ""
  · subst hx
    rw [show stepLS d "" = d by simp [stepLS], stepLS_self]
  · unfold stepLS
    simp only [if_neg hx]
    by_cases hd : x < d
    · simp [hd, if_pos hd]
    · simp only [if_neg hd, if_neg hx, if_neg hd]

theorem stepFS_le (d x : String) (h : x ≠ "") : stepFS d x ≤ x := by
  unfold stepFS
  simp only [if_neg h]
  by_cases hd : d < x
  · simpa [hd] using le_of_lt hd
  · simp [hd]

theorem stepFS_ne (d x : String) (hd : d ≠ "") (h : x ≠ "") :
    stepFS d x ≠ "" := by
  unfold stepFS
  simp only [if_neg h]
  by_cases hlt : d < x <;> simp [hlt, hd, h]

theorem le_stepLS (d x : String) : x ≤ stepLS d x := by
  by_cases hx : x = ""
  · exact hx ▸ empty_le_string _
  · unfold stepLS
    simp only [if_neg hx]
    by_cases hd : x < d
    · simpa [hd] using le_of_lt hd
    · simp [hd]

theorem stepFS_le_d (d x : String) : stepFS d x ≤ d := by
  unfold stepFS
  by_cases hx : x = ""
  · simp [hx]
  · simp only [if_neg hx]
    by_cases hd : d < x
    · simp [hd]
    · simpa [hd] using le_of_not_lt hd

theorem d_le_stepLS (d x : String) : d ≤ stepLS d x := by
  unfold stepLS
  by_cases hx : x = ""
  · simp [hx]
  · simp only [if_neg hx]
    by_cases hd : x < d
    · simp [hd]
    · simpa [hd] using le_of_not_lt hd

/-! ## applyUpdate / newRow basic facts -/

theorem catKey_applyUpdate (d : String) (p : UpdParams) (r : CumRow) :
    catKey (applyUpdate d p r) = catKey r := rfl

theorem catKey_newRow (a t d : String) (p : UpdParams) :
    catKey (newRow a t d p) = normalizeKey2 a t := rfl

theorem goodToken_union {X Y : Finset String}
    (hX : ∀ x ∈ X, goodToken x) (hY : ∀ x ∈ Y, goodToken x) :
    ∀ x ∈ X ∪ Y, goodToken x := by
  intro x hx
  rcases Finset.mem_union.mp hx with h | h
  · exact hX x h
  · exact hY x h

theorem applyUpdate_stations (d : String) (p : UpdParams) (r : CumRow)
    (hg : ∀ x ∈ p.today, goodToken x) :
    splitStations (applyUpdate d p r).stations =
      splitStations r.stations ∪ p.today := by
  show splitStations (joinStations (splitStations r.stations ∪ p.today)) = _
  exact splitStations_joinStations _
    (goodToken_union (goodToken_mem_splitStations r.stations) hg)

theorem applyUpdate_firstSeen_le (d : String) (p : UpdParams) (r : CumRow)
    (h : r.firstSeen ≠ "") : (applyUpdate d p r).firstSeen ≤ r.firstSeen :=
  stepFS_le d r.firstSeen h

theorem applyUpdate_firstSeen_ne (d : String) (p : UpdParams) (r : CumRow)
    (hd : d ≠ "") (h : r.firstSeen ≠ "") :
    (applyUpdate d p r).firstSeen ≠ "" :=
  stepFS_ne d r.firstSeen hd h

theorem applyUpdate_lastSeen_le (d : String) (p : UpdParams) (r : CumRow) :
    r.lastSeen ≤ (applyUpdate d p r).lastSeen :=
  le_stepLS d r.lastSeen

theorem applyUpdate_dates (d : String) (p : UpdParams) (r : CumRow) :
    (applyUpdate d p r).firstSeen ≤ (applyUpdate d p r).lastSeen :=
  le_trans (stepFS_le_d d r.firstSeen) (d_le_stepLS d r.lastSeen)

theorem newRow_dates (a t d : String) (p : UpdParams) :
    (newRow a t d p).firstSeen ≤ (newRow a t d p).lastSeen := le_rfl

/-! ## Absorption: establishment, preservation, fixed point -/

theorem strTruthy_getD {o : Option String} (h : strTruthy o) :
    o.getD "" ≠ "" := by
  cases o with
  | none => exact absurd h (by simp [strTruthy])
  | some v => simpa [strTruthy] using h

theorem rowAbsorbed_applyUpdate (d : String) (p : UpdParams) (r : CumRow)
    (hg : ∀ x ∈ p.today, goodToken x) :
    RowAbsorbed d p (applyUpdate d p r) := by
  have hst := applyUpdate_stations d p r hg
  refine ⟨?_, ?_, ?_, ?_, ?_, ?_⟩
  · rw [hst]
    rfl
  · rw [hst]
    exact Finset.subset_union_right
  · exact stepFS_idem d r.firstSeen
  · exact stepLS_idem d r.lastSeen
  · intro htr
    show (if r.bpm = "" ∧ strTruthy p.bpmN then p.bpmN.getD "" else r.bpm) ≠ ""
    by_cases hc : r.bpm = "" ∧ strTruthy p.bpmN
    · rw [if_pos hc]
      exact strTruthy_getD htr
    · rw [if_neg hc]
      intro hbe
      exact hc ⟨hbe, htr⟩
  · intro htr
    show (if r.keyCol = "" ∧ strTruthy p.keyN then p.keyN.getD "" else r.keyCol) ≠ ""
    by_cases hc : r.keyCol = "" ∧ strTruthy p.keyN
    · rw [if_pos hc]
      exact strTruthy_getD htr
    · rw [if_neg hc]
      intro hbe
      exact hc ⟨hbe, htr⟩

theorem splitStations_empty : splitStations "" = ∅ := by decide

theorem rowAbsorbed_newRow (a t d : String) (p : UpdParams)
    (hg : ∀ x ∈ p.today, goodToken x) :
    RowAbsorbed d p (newRow a t d p) := by
  have hsp : splitStations (newRow a t d p).stations = p.today := by
    show splitStations (if p.today = ∅ then "" else joinStations p.today) = _
    by_cases he : p.today = ∅
    · rw [if_pos he, splitStations_empty, he]
    · rw [if_neg he]
      exact splitStations_joinStations p.today hg
  refine ⟨?_, ?_, ?_, ?_, ?_, ?_⟩
  · rw [hsp]
    show joinStations p.today = (if p.today = ∅ then "" else joinStations p.today)
    by_cases he : p.today = ∅
    · rw [if_pos he, he]
      simp [joinStations, Finset.sort_empty, joinTokens]
    · rw [if_neg he]
  · rw [hsp]
  · exact stepFS_self d
  · exact stepLS_self d
  · intro htr
    show p.bpmN.getD "" ≠ ""
    exact strTruthy_getD htr
  · intro htr
    show p.keyN.getD "" ≠ ""
    exact strTruthy_getD htr

theorem rowAbsorbed_preserved (d : String) (p p2 : UpdParams) (r : CumRow)
    (h : RowAbsorbed d p r) (hg2 : ∀ x ∈ p2.today, goodToken x) :
    RowAbsorbed d p (applyUpdate d p2 r) := by
  obtain ⟨hcan, hsub, hfs, hls, hbpm, hkey⟩ := h
  have hst := applyUpdate_stations d p2 r hg2
  refine ⟨?_, ?_, ?_, ?_, ?_, ?_⟩
  · rw [hst]
    rfl
  · rw [hst]
    exact subset_trans hsub Finset.subset_union_left
  · show stepFS d (stepFS d r.firstSeen) = stepFS d r.firstSeen
    exact stepFS_idem d r.firstSeen
  · exact stepLS_idem d r.lastSeen
  · intro htr
    have hb := hbpm htr
    show (if r.bpm = "" ∧ strTruthy p2.bpmN then p2.bpmN.getD "" else r.bpm) ≠ ""
    rw [if_neg fun hc => hb hc.1]
    exact hb
  · intro htr
    have hb := hkey htr
    show (if r.keyCol = "" ∧ strTruthy p2.keyN then p2.keyN.getD "" else r.keyCol) ≠ ""
    rw [if_neg fun hc => hb hc.1]
    exact hb

theorem applyUpdate_fix (d : String) (p : UpdParams) (r : CumRow)
    (h : RowAbsorbed d p r) : applyUpdate d p r = r := by
  obtain ⟨hcan, hsub, hfs, hls, hbpm, hkey⟩ := h
  unfold applyUpdate
  rw [Finset.union_eq_left.mpr hsub, hcan, hfs, hls,
    if_neg fun hc => hbpm hc.2 hc.1, if_neg fun hc => hkey hc.2 hc.1]

/-! ## findKey / mergeInto structure -/

theorem findKey_cons_pos {r : CumRow} {c : List CumRow} {k : String}
    (h : catKey r = k) : findKey (r :: c) k = some r :=
  List.find?_cons_of_pos _ (by simpa using h)

theorem findKey_cons_neg {r : CumRow} {c : List CumRow} {k : String}
    (h : catKey r ≠ k) : findKey (r :: c) k = findKey c k :=
  List.find?_cons_of_neg _ (by simpa using h)

theorem findKey_key {c : List CumRow} {k : String} {r : CumRow}
    (h : findKey c k = some r) : catKey r = k := by
  have := List.find?_some h
  simpa using this

theorem findKey_mem {c : List CumRow} {k : String} {r : CumRow}
    (h : findKey c k = some r) : r ∈ c :=
  List.mem_of_find?_eq_some h

theorem mem_mergeInto {d k a t : String} {p : UpdParams} {c : List CumRow}
    {x : CumRow} (hx : x ∈ mergeInto d k a t p c) :
    (∃ r ∈ c, x = r ∨ x = applyUpdate d p r) ∨ x = newRow a t d p := by
  induction c with
  | nil =>
    simp [mergeInto] at hx
    exact Or.inr hx
  | cons r0 rs ih =>
    unfold mergeInto at hx
    by_cases h0 : catKey r0 = k
    · rw [if_pos h0] at hx
      rcases List.mem_cons.mp hx with h | h
      · exact Or.inl ⟨r0, List.mem_cons_self _ _, Or.inr h⟩
      · exact Or.inl ⟨x, List.mem_cons.mpr (Or.inr h), Or.inl rfl⟩
    · rw [if_neg h0] at hx
      rcases List.mem_cons.mp hx with h | h
      · exact Or.inl ⟨r0, List.mem_cons_self _ _, Or.inl (h.symm ▸ rfl)⟩
      · rcases ih h with ⟨r1, hr1, hx1⟩ | h1
        · exact Or.inl ⟨r1, List.mem_cons.mpr (Or.inr hr1), hx1⟩
        · exact Or.inr h1

theorem mergeInto_cons_pos {d k a t : String} {p : UpdParams}
    {r0 : CumRow} {rs : List CumRow} (h : catKey r0 = k) :
    mergeInto d k a t p (r0 :: rs) = applyUpdate d p r0 :: rs := by
  simp only [mergeInto, if_pos h]

theorem mergeInto_cons_neg {d k a t : String} {p : UpdParams}
    {r0 : CumRow} {rs : List CumRow} (h : ¬ catKey r0 = k) :
    mergeInto d k a t p (r0 :: rs) = r0 :: mergeInto d k a t p rs := by
  simp only [mergeInto, if_neg h]

theorem findKey_mergeInto_found {d k a t : String} {p : UpdParams}
    {c : List CumRow} {r : CumRow} (h : findKey c k = some r) :
    findKey (mergeInto d k a t p c) k = some (applyUpdate d p r) := by
  induction c with
  | nil => simp [findKey] at h
  | cons r0 rs ih =>
    by_cases h0 : catKey r0 = k
    · rw [findKey_cons_pos h0] at h
      injection h with h
      subst h
      rw [mergeInto_cons_pos h0]
      exact findKey_cons_pos (by rw [catKey_applyUpdate, h0])
    · rw [findKey_cons_neg h0] at h
      rw [mergeInto_cons_neg h0, findKey_cons_neg h0]
      exact ih h

theorem findKey_mergeInto_none {d k a t : String} {p : UpdParams}
    {c : List CumRow} (h : findKey c k = none)
    (hk : catKey (newRow a t d p) = k) :
    findKey (mergeInto d k a t p c) k = some (newRow a t d p) := by
  induction c with
  | nil =>
    show findKey [newRow a t d p] k = _
    exact findKey_cons_pos hk
  | cons r0 rs ih =>
    by_cases h0 : catKey r0 = k
    · rw [findKey_cons_pos h0] at h
      exact absurd h (by simp)
    · rw [findKey_cons_neg h0] at h
      rw [mergeInto_cons_neg h0, findKey_cons_neg h0]
      exact ih h

theorem findKey_mergeInto_other {d k a t k2 : String} {p : UpdParams}
    {c : List CumRow} (hne : k2 ≠ k)
    (hk : catKey (newRow a t d p) = k) :
    findKey (mergeInto d k a t p c) k2 = findKey c k2 := by
  induction c with
  | nil =>
    show findKey [newRow a t d p] k2 = findKey [] k2
    rw [findKey_cons_neg (by rw [hk]; exact fun h => hne h.symm)]
  | cons r0 rs ih =>
    by_cases h0 : catKey r0 = k
    · rw [mergeInto_cons_pos h0]
      by_cases h2 : catKey r0 = k2
      · exact absurd (h2.symm.trans h0) hne
      · rw [findKey_cons_neg (by rw [catKey_applyUpdate]; exact h2),
          findKey_cons_neg h2]
    · rw [mergeInto_cons_neg h0]
      by_cases h2 : catKey r0 = k2
      · rw [findKey_cons_pos h2, findKey_cons_pos h2]
      · rw [findKey_cons_neg h2, findKey_cons_neg h2]
        exact ih

/-! ## Key uniqueness is preserved -/

theorem uniqueKeys_mergeInto {d k a t : String} {p : UpdParams}
    {c : List CumRow} (h : UniqueKeys c)
    (hk : catKey (newRow a t d p) = k) :
    UniqueKeys (mergeInto d k a t p c) := by
  induction c with
  | nil => simp [mergeInto, UniqueKeys]
  | cons r0 rs ih =>
    rw [UniqueKeys, List.pairwise_cons] at h
    obtain ⟨h0, hrs⟩ := h
    by_cases hc : catKey r0 = k
    · rw [mergeInto_cons_pos hc]
      rw [UniqueKeys, List.pairwise_cons]
      exact ⟨fun x hx => by rw [catKey_applyUpdate]; exact h0 x hx, hrs⟩
    · rw [mergeInto_cons_neg hc]
      rw [UniqueKeys, List.pairwise_cons]
      constructor
      · intro x hx
        rcases mem_mergeInto hx with ⟨r1, hr1, hx1⟩ | hx1
        · rcases hx1 with h | h
          · exact h ▸ h0 r1 hr1
          · rw [h, catKey_applyUpdate]
            exact h0 r1 hr1
        · rw [hx1, hk]
          exact hc
      · exact ih hrs

theorem uniqueKeys_processRow {d : String} {row : InRow} {c : List CumRow}
    (h : UniqueKeys c) : UniqueKeys (processRow d c row) := by
  unfold processRow
  cases hid : rowIdent row with
  | none => exact h
  | some at2 =>
    exact uniqueKeys_mergeInto h (catKey_newRow _ _ _ _)

theorem uniqueKeys_mergeTable {c : List CumRow} {t : List InRow}
    {d : String} (h : UniqueKeys c) : UniqueKeys (mergeTable c t d) := by
  induction t generalizing c with
  | nil => exact h
  | cons row rest ih => exact ih (uniqueKeys_processRow h)

theorem uniqueKeys_perm {c c2 : List CumRow} (hp : c.Perm c2)
    (h : UniqueKeys c) : UniqueKeys c2 :=
  (List.Perm.pairwise_iff (fun hxy => fun he => hxy he.symm) hp).mp h

theorem uniqueKeys_sortCatalog {c : List CumRow} (h : UniqueKeys c) :
    UniqueKeys (sortCatalog c) :=
  uniqueKeys_perm (List.perm_insertionSort rowLe c).symm h

theorem uniqueKeys_mergeCatalog {c : List CumRow} {t : List InRow}
    {d : String} (h : UniqueKeys c) : UniqueKeys (mergeCatalog c t d) :=
  uniqueKeys_sortCatalog (uniqueKeys_mergeTable h)

/-! ## The presentation sort is a total preorder -/

instance : IsTotal CumRow rowLe := by
  constructor
  intro x y
  unfold rowLe
  rcases lt_trichotomy x.lastSeen y.lastSeen with h | h | h
  · exact Or.inr (Or.inl h)
  · rcases lt_trichotomy x.artist y.artist with h2 | h2 | h2
    · exact Or.inl (Or.inr ⟨h, Or.inl h2⟩)
    · rcases le_total x.title y.title with h3 | h3
      · exact Or.inl (Or.inr ⟨h, Or.inr ⟨h2, h3⟩⟩)
      · exact Or.inr (Or.inr ⟨h.symm, Or.inr ⟨h2.symm, h3⟩⟩)
    · exact Or.inr (Or.inr ⟨h.symm, Or.inl h2⟩)
  · exact Or.inl (Or.inl h)

instance : IsTrans CumRow rowLe := by
  constructor
  intro x y z hxy hyz
  unfold rowLe at *
  rcases hxy with h1 | ⟨e1, h1⟩
  · rcases hyz with h2 | ⟨e2, h2⟩
    · exact Or.inl (lt_trans h2 h1)
    · exact Or.inl (e2 ▸ h1)
  · rcases hyz with h2 | ⟨e2, h2⟩
    · exact Or.inl (e1 ▸ h2)
    · refine Or.inr ⟨e1.trans e2, ?_⟩
      rcases h1 with h1 | ⟨f1, h1⟩
      · rcases h2 with h2 | ⟨f2, h2⟩
        · exact Or.inl (lt_trans h1 h2)
        · exact Or.inl (f2 ▸ h1)
      · rcases h2 with h2 | ⟨f2, h2⟩
        · exact Or.inl (f1 ▸ h2)
        · exact Or.inr ⟨f1.trans f2, le_trans h1 h2⟩

theorem sortCatalog_sorted (c : List CumRow) :
    List.Sorted rowLe (sortCatalog c) :=
  List.sorted_insertionSort rowLe c

theorem sortCatalog_of_sorted {c : List CumRow}
    (h : List.Sorted rowLe c) : sortCatalog c = c :=
  List.Sorted.insertionSort_eq h

theorem sortCatalog_perm (c : List CumRow) : (sortCatalog c).Perm c :=
  List.perm_insertionSort rowLe c

/-! ## processRow structure and membership -/

theorem mergeTable_cons (c : List CumRow) (row : InRow) (rest : List InRow)
    (d : String) :
    mergeTable c (row :: rest) d = mergeTable (processRow d c row) rest d :=
  rfl

theorem rowParams_good (row : InRow) :
    ∀ x ∈ (rowParams row).today, goodToken x :=
  goodToken_mem_splitStations row.stations

theorem applyUpdate_stations_subset (d : String) (p : UpdParams)
    (r : CumRow) (hg : ∀ x ∈ p.today, goodToken x) :
    splitStations r.stations ⊆
      splitStations (applyUpdate d p r).stations := by
  rw [applyUpdate_stations d p r hg]
  exact Finset.subset_union_left

theorem mem_processRow {d : String} {row : InRow} {c : List CumRow}
    {x : CumRow} (hx : x ∈ processRow d c row) :
    (∃ r ∈ c, x = r ∨ ∃ p2, x = applyUpdate d p2 r) ∨
      ∃ a t p2, x = newRow a t d p2 := by
  unfold processRow at hx
  cases hid : rowIdent row with
  | none =>
    rw [hid] at hx
    exact Or.inl ⟨x, hx, Or.inl rfl⟩
  | some at2 =>
    obtain ⟨a, t⟩ := at2
    rw [hid] at hx
    rcases mem_mergeInto hx with ⟨r, hr, hx1 | hx1⟩ | hx1
    · exact Or.inl ⟨r, hr, Or.inl hx1⟩
    · exact Or.inl ⟨r, hr, Or.inr ⟨_, hx1⟩⟩
    · exact Or.inr ⟨a, t, _, hx1⟩

theorem datesOK_processRow {d : String} {row : InRow} {c : List CumRow}
    (h : DatesOK c) : DatesOK (processRow d c row) := by
  intro x hx
  rcases mem_processRow hx with ⟨r, hr, hx1 | ⟨p2, hx1⟩⟩ | ⟨a, t, p2, hx1⟩
  · exact hx1 ▸ h r hr
  · exact hx1 ▸ applyUpdate_dates d p2 r
  · exact hx1 ▸ newRow_dates a t d p2

theorem datesOK_mergeTable {c : List CumRow} {t : List InRow} {d : String}
    (h : DatesOK c) : DatesOK (mergeTable c t d) := by
  induction t generalizing c with
  | nil => exact h
  | cons row rest ih => exact ih (datesOK_processRow h)

theorem datesOK_perm {c c2 : List CumRow} (hp : c.Perm c2)
    (h : DatesOK c) : DatesOK c2 := fun r hr => h r (hp.mem_iff.mpr hr)

theorem datesOK_mergeCatalog {c : List CumRow} {t : List InRow}
    {d : String} (h : DatesOK c) : DatesOK (mergeCatalog c t d) :=
  datesOK_perm (sortCatalog_perm _).symm (datesOK_mergeTable h)

/-! ## Per-key tracking through a merge -/

theorem findKey_processRow_track {d : String} {row : InRow}
    {c : List CumRow} {k : String} {r : CumRow}
    (h : findKey c k = some r) :
    findKey (processRow d c row) k = some r ∨
    findKey (processRow d c row) k =
      some (applyUpdate d (rowParams row) r) := by
  unfold processRow
  cases hid : rowIdent row with
  | none => exact Or.inl h
  | some at2 =>
    obtain ⟨a, t⟩ := at2
    by_cases hk : normalizeKey2 a t = k
    · subst hk
      exact Or.inr (findKey_mergeInto_found h)
    · refine Or.inl ?_
      rw [findKey_mergeInto_other (fun he => hk he.symm)
        (catKey_newRow a t d _)]
      exact h

theorem track_mergeTable {d : String} (hd : d ≠ "") (t : List InRow) :
    ∀ (c : List CumRow) (k : String) (r : CumRow), findKey c k = some r →
    ∃ r2, findKey (mergeTable c t d) k = some r2 ∧
      (r.firstSeen ≠ "" → r2.firstSeen ≤ r.firstSeen ∧ r2.firstSeen ≠ "") ∧
      r.lastSeen ≤ r2.lastSeen ∧
      splitStations r.stations ⊆ splitStations r2.stations := by
  induction t with
  | nil =>
    intro c k r h
    exact ⟨r, h, fun hfs => ⟨le_rfl, hfs⟩, le_rfl, subset_rfl⟩
  | cons row rest ih =>
    intro c k r h
    rw [mergeTable_cons]
    rcases @findKey_processRow_track d row _ _ _ h with h1 | h1
    · exact ih _ k r h1
    · obtain ⟨r2, hf, hfs, hls, hst⟩ := ih _ k _ h1
      refine ⟨r2, hf, ?_, ?_, ?_⟩
      · intro hfsne
        have h1le := applyUpdate_firstSeen_le d (rowParams row) r hfsne
        have h1ne := applyUpdate_firstSeen_ne d (rowParams row) r hd hfsne
        obtain ⟨h2le, h2ne⟩ := hfs h1ne
        exact ⟨le_trans h2le h1le, h2ne⟩
      · exact le_trans (applyUpdate_lastSeen_le d (rowParams row) r) hls
      · exact subset_trans
          (applyUpdate_stations_subset d (rowParams row) r
            (rowParams_good row)) hst

/-! ## findKey under permutation (unique keys) -/

theorem findKey_unique {c : List CumRow} {k : String} {r : CumRow}
    (hu : UniqueKeys c) (hr : r ∈ c) (hk : catKey r = k) :
    ∀ x ∈ c, catKey x = k → x = r := by
  induction c with
  | nil => exact fun x hx => absurd hx (List.not_mem_nil x)
  | cons a l ih =>
    rw [UniqueKeys, List.pairwise_cons] at hu
    obtain ⟨ha, hl⟩ := hu
    intro x hx hxk
    rcases List.mem_cons.mp hr with hr1 | hr1
    · rcases List.mem_cons.mp hx with hx1 | hx1
      · exact hx1.trans hr1.symm
      · exact absurd (by rw [hr1] at hk; rw [hk, ← hxk]) (ha x hx1)
    · rcases List.mem_cons.mp hx with hx1 | hx1
      · exact absurd (by rw [hx1] at hxk; rw [hxk, ← hk]) (ha r hr1)
      · exact ih hl hr1 x hx1 hxk

theorem findKey_perm {c c2 : List CumRow} {k : String} {r : CumRow}
    (hu : UniqueKeys c) (hp : c.Perm c2) (hf : findKey c k = some r) :
    findKey c2 k = some r := by
  have hr : r ∈ c := findKey_mem hf
  have hk : catKey r = k := findKey_key hf
  have hsome : (findKey c2 k).isSome := by
    rw [findKey, List.find?_isSome]
    exact ⟨r, hp.mem_iff.mp hr, by simpa using hk⟩
  obtain ⟨r2, hr2⟩ := Option.isSome_iff_exists.mp hsome
  have hr2c : r2 ∈ c := hp.mem_iff.mpr (findKey_mem hr2)
  rw [hr2, findKey_unique hu hr hk r2 hr2c (findKey_key hr2)]

/-! ## Re-merging is the identity on an absorbed catalog -/

theorem absorbs_processRow_self (d : String) (row : InRow)
    (c : List CumRow) : Absorbs d row (processRow d c row) := by
  unfold Absorbs processRow
  cases hid : rowIdent row with
  | none => simp only
  | some at2 =>
    obtain ⟨a, t⟩ := at2
    simp only
    cases hf : findKey c (normalizeKey2 a t) with
    | some r =>
      exact ⟨applyUpdate d (rowParams row) r, findKey_mergeInto_found hf,
        rowAbsorbed_applyUpdate d (rowParams row) r (rowParams_good row)⟩
    | none =>
      exact ⟨newRow a t d (rowParams row),
        findKey_mergeInto_none hf (catKey_newRow a t d _),
        rowAbsorbed_newRow a t d (rowParams row) (rowParams_good row)⟩

theorem absorbs_processRow_other {d : String} {row : InRow}
    {c : List CumRow} (row2 : InRow) (h : Absorbs d row c) :
    Absorbs d row (processRow d c row2) := by
  unfold Absorbs at h ⊢
  cases hid : rowIdent row with
  | none => simp only
  | some at2 =>
    obtain ⟨a, t⟩ := at2
    rw [hid] at h
    obtain ⟨r, hf, hra⟩ := h
    rcases @findKey_processRow_track d row2 _ _ _ hf with h1 | h1
    · exact ⟨r, h1, hra⟩
    · exact ⟨_, h1, rowAbsorbed_preserved d (rowParams row)
        (rowParams row2) r hra (rowParams_good row2)⟩

theorem absorbs_mergeTable {d : String} {row : InRow} {c : List CumRow}
    (rest : List InRow) (h : Absorbs d row c) :
    Absorbs d row (mergeTable c rest d) := by
  induction rest generalizing c with
  | nil => exact h
  | cons row2 rest2 ih => exact ih (absorbs_processRow_other row2 h)

theorem absorbs_all {d : String} (t : List InRow) :
    ∀ (c : List CumRow), ∀ row ∈ t, Absorbs d row (mergeTable c t d) := by
  induction t with
  | nil =>
    intro c row hr
    exact absurd hr (List.not_mem_nil row)
  | cons row2 rest ih =>
    intro c row hr
    rcases List.mem_cons.mp hr with hr1 | hr1
    · rw [mergeTable_cons, hr1]
      exact absorbs_mergeTable rest (absorbs_processRow_self d row2 c)
    · exact ih (processRow d c row2) row hr1

theorem absorbs_sortCatalog {d : String} {row : InRow} {c : List CumRow}
    (hu : UniqueKeys c) (h : Absorbs d row c) :
    Absorbs d row (sortCatalog c) := by
  unfold Absorbs at h ⊢
  cases hid : rowIdent row with
  | none => simp only
  | some at2 =>
    obtain ⟨a, t⟩ := at2
    rw [hid] at h
    obtain ⟨r, hf, hra⟩ := h
    exact ⟨r, findKey_perm hu (sortCatalog_perm c).symm hf, hra⟩

theorem mergeInto_eq_self {d k a t : String} {p : UpdParams}
    {c : List CumRow} {r : CumRow} (hf : findKey c k = some r)
    (hfix : applyUpdate d p r = r) : mergeInto d k a t p c = c := by
  induction c with
  | nil => simp [findKey] at hf
  | cons r0 rs ih =>
    by_cases h0 : catKey r0 = k
    · rw [findKey_cons_pos h0] at hf
      injection hf with hf
      subst hf
      rw [mergeInto_cons_pos h0, hfix]
    · rw [findKey_cons_neg h0] at hf
      rw [mergeInto_cons_neg h0, ih hf]

theorem processRow_eq_self {d : String} {row : InRow} {c : List CumRow}
    (h : Absorbs d row c) : processRow d c row = c := by
  unfold Absorbs at h
  unfold processRow
  cases hid : rowIdent row with
  | none => simp only
  | some at2 =>
    obtain ⟨a, t⟩ := at2
    rw [hid] at h
    obtain ⟨r, hf, hra⟩ := h
    exact mergeInto_eq_self hf (applyUpdate_fix d (rowParams row) r hra)

theorem mergeTable_eq_self {d : String} {c : List CumRow}
    (t : List InRow) (h : ∀ row ∈ t, Absorbs d row c) :
    mergeTable c t d = c := by
  induction t with
  | nil => rfl
  | cons row rest ih =>
    rw [mergeTable_cons, processRow_eq_self (h row (List.mem_cons_self _ _))]
    exact ih fun row2 hr2 => h row2 (List.mem_cons.mpr (Or.inr hr2))

/-! ## Resolver lemmas: best_path_for_key -/

theorem bestPathFold_mem (idx : LibIndex) (td : ℚ) (l : List String)
    (P : List String) :
    ∀ (acc : String × Option ℚ), acc.1 ∈ P → (∀ sp ∈ l, sp ∈ P) →
    (l.foldl (bestPathStep idx td) acc).1 ∈ P := by
  induction l with
  | nil => exact fun acc hacc _ => hacc
  | cons sp l2 ih =>
    intro acc hacc hl
    apply ih
    · unfold bestPathStep
      cases trackDuration idx sp with
      | none => exact hacc
      | some dur =>
        cases acc.2 with
        | none => exact hl sp (List.mem_cons_self _ _)
        | some bd =>
          dsimp only
          split
          · exact hl sp (List.mem_cons_self _ _)
          · exact hacc
    · exact fun sp2 h2 => hl sp2 (List.mem_cons.mpr (Or.inr h2))

theorem bestPathFold_delta (idx : LibIndex) (td : ℚ) (l : List String) :
    ∀ (acc : String × Option ℚ),
    (∀ bd, acc.2 = some bd →
      ∃ dq, trackDuration idx acc.1 = some dq ∧ |dq - td| = bd) →
    ∀ bd, (l.foldl (bestPathStep idx td) acc).2 = some bd →
    ∃ dq, trackDuration idx (l.foldl (bestPathStep idx td) acc).1 =
      some dq ∧ |dq - td| = bd := by
  induction l with
  | nil => exact fun acc hacc => hacc
  | cons sp l2 ih =>
    intro acc hacc
    apply ih
    intro bd hbd
    unfold bestPathStep at hbd ⊢
    obtain ⟨a1, a2⟩ := acc
    generalize hdur : trackDuration idx sp = tdur at hbd ⊢
    cases tdur with
    | none => exact hacc bd hbd
    | some dur =>
      cases a2 with
      | none =>
        dsimp only at hbd ⊢
        injection hbd with hbd
        exact ⟨dur, hdur, hbd⟩
      | some bd0 =>
        dsimp only at hbd ⊢
        split at hbd
        · injection hbd with hbd
          rw [if_pos (by assumption)]
          exact ⟨dur, hdur, hbd⟩
        · rw [if_neg (by assumption)]
          exact hacc bd hbd

theorem bestPathFold_mono (idx : LibIndex) (td : ℚ) (l : List String) :
    ∀ (acc : String × Option ℚ) (bd : ℚ), acc.2 = some bd →
    ∃ bd2, (l.foldl (bestPathStep idx td) acc).2 = some bd2 ∧ bd2 ≤ bd := by
  induction l with
  | nil => exact fun acc bd h => ⟨bd, h, le_rfl⟩
  | cons sp l2 ih =>
    intro acc bd h
    rw [List.foldl_cons]
    have hstep : ∃ bd2, (bestPathStep idx td acc sp).2 = some bd2 ∧
        bd2 ≤ bd := by
      unfold bestPathStep
      cases trackDuration idx sp with
      | none => exact ⟨bd, h, le_rfl⟩
      | some dur =>
        obtain ⟨a1, a2⟩ := acc
        cases a2 with
        | none => exact absurd h (by simp)
        | some bd0 =>
          have hb : bd0 = bd := by
            have h2 : (some bd0 : Option ℚ) = some bd := h
            injection h2
          dsimp only
          by_cases hlt : |dur - td| < bd0
          · rw [if_pos hlt]
            exact ⟨|dur - td|, rfl, hb ▸ le_of_lt hlt⟩
          · rw [if_neg hlt]
            exact ⟨bd0, rfl, hb ▸ le_rfl⟩
    obtain ⟨bd2, h2, hle⟩ := hstep
    obtain ⟨bd3, h3, hle3⟩ := ih _ bd2 h2
    exact ⟨bd3, h3, le_trans hle3 hle⟩

theorem bestPathFold_min (idx : LibIndex) (td : ℚ) (l : List String)
    (acc : String × Option ℚ) :
    ∀ sp ∈ l, ∀ dq, trackDuration idx sp = some dq →
    ∃ bd, (l.foldl (bestPathStep idx td) acc).2 = some bd ∧
      bd ≤ |dq - td| := by
  intro sp hsp dq hdq
  obtain ⟨l1, l2, rfl⟩ := List.append_of_mem hsp
  rw [List.foldl_append]
  rw [List.foldl_cons]
  set acc1 := l1.foldl (bestPathStep idx td) acc with hacc1
  have hstep : ∃ bd2, (bestPathStep idx td acc1 sp).2 = some bd2 ∧
      bd2 ≤ |dq - td| := by
    unfold bestPathStep
    rw [hdq]
    cases h2 : acc1.2 with
    | none => exact ⟨|dq - td|, rfl, le_rfl⟩
    | some bd0 =>
      dsimp only
      by_cases hlt : |dq - td| < bd0
      · rw [if_pos hlt]
        exact ⟨|dq - td|, rfl, le_rfl⟩
      · rw [if_neg hlt]
        exact ⟨bd0, h2, le_of_not_lt hlt⟩
  obtain ⟨bd2, hbd2, hle2⟩ := hstep
  obtain ⟨bd3, hbd3, hle3⟩ := bestPathFold_mono idx td l2 _ bd2 hbd2
  exact ⟨bd3, hbd3, le_trans hle3 hle2⟩

theorem bestPathForKey_none_dur (idx : LibIndex) (k : String)
    {p0 : String} {rest : List String}
    (hlk : lookupA idx.byKey k = some (p0 :: rest)) :
    bestPathForKey idx k none = some p0 := by
  unfold bestPathForKey
  rw [hlk]

theorem bestPathForKey_mem (idx : LibIndex) (k : String) (td : Option ℚ)
    {p0 : String} {rest : List String}
    (hlk : lookupA idx.byKey k = some (p0 :: rest)) :
    ∃ p, bestPathForKey idx k td = some p ∧ p ∈ p0 :: rest := by
  unfold bestPathForKey
  rw [hlk]
  cases td with
  | none => exact ⟨p0, rfl, List.mem_cons_self _ _⟩
  | some d =>
    refine ⟨_, rfl, ?_⟩
    exact bestPathFold_mem idx d (p0 :: rest) (p0 :: rest) (p0, none)
      (List.mem_cons_self _ _) fun sp h => h

theorem bestPathForKey_closest (idx : LibIndex) (k : String) (d : ℚ)
    {p0 : String} {rest : List String}
    (hlk : lookupA idx.byKey k = some (p0 :: rest))
    {q : String} (hq : q ∈ p0 :: rest) {dq : ℚ}
    (hdq : trackDuration idx q = some dq) :
    ∃ p dp, bestPathForKey idx k (some d) = some p ∧
      trackDuration idx p = some dp ∧ |dp - d| ≤ |dq - d| := by
  unfold bestPathForKey
  rw [hlk]
  obtain ⟨bd, hbd, hle⟩ :=
    bestPathFold_min idx d (p0 :: rest) (p0, none) q hq dq hdq
  obtain ⟨dp, hdp, hdpe⟩ :=
    bestPathFold_delta idx d (p0 :: rest) (p0, none)
      (fun bd0 h0 => by simp at h0) bd hbd
  exact ⟨_, dp, rfl, hdp, hdpe ▸ hle⟩

/-! ## Resolver lemmas: matchOne branches -/

theorem matchOne_exact (score : String → String → ℚ) (idx : LibIndex)
    (threshold : ℚ) (row : TrackRowL) {paths : List String}
    (hlk : lookupA idx.byKey (rowKey row) = some paths) :
    matchOne score idx threshold row =
      (row, bestPathForKey idx (rowKey row) row.duration, 100) := by
  simp only [matchOne, hlk]

theorem matchOne_fst (score : String → String → ℚ) (idx : LibIndex)
    (threshold : ℚ) (row : TrackRowL) :
    (matchOne score idx threshold row).1 = row := by
  simp only [matchOne]
  cases h : lookupA idx.byKey (rowKey row) with
  | none =>
    simp only
    split_ifs <;> rfl
  | some v => rfl

theorem matchOne_no_keys (score : String → String → ℚ) (idx : LibIndex)
    (threshold : ℚ) (row : TrackRowL)
    (hnx : lookupA idx.byKey (rowKey row) = none)
    (hk : idx.byKey.map Prod.fst = []) :
    matchOne score idx threshold row = (row, none, 0) := by
  simp only [matchOne, hnx, hk, if_pos]

theorem matchOne_no_cands (score : String → String → ℚ) (idx : LibIndex)
    (threshold : ℚ) (row : TrackRowL)
    (hnx : lookupA idx.byKey (rowKey row) = none)
    (hc : filteredCands score idx threshold row = []) :
    matchOne score idx threshold row = (row, none, 0) := by
  simp only [matchOne, hnx, hc]
  split_ifs <;> rfl

/-- The result of `matchOne` on a non-exact row, expressed through the
selection state — the three-way acceptance decision of the source. -/
theorem matchOne_select (score : String → String → ℚ) (idx : LibIndex)
    (threshold : ℚ) (row : TrackRowL)
    (hnx : lookupA idx.byKey (rowKey row) = none)
    (hk : idx.byKey.map Prod.fst ≠ [])
    (hc : filteredCands score idx threshold row ≠ []) :
    matchOne score idx threshold row =
      (let st := selectState idx row.duration
        (filteredCands score idx threshold row)
      if st.chosenKey ≠ none ∧ threshold ≤ st.chosenScore then
        (row, st.chosenPath, st.chosenScore)
      else if deltaLe4 st.bestDelta ∧ threshold - 8 ≤ st.chosenScore then
        (row, st.chosenPath, max st.chosenScore (threshold - 2))
      else (row, none, if 0 ≤ st.chosenScore then st.chosenScore else 0)) := by
  simp only [matchOne, hnx, if_neg hk, if_neg hc]

/-! ## Resolver lemmas: selection-state invariant -/

theorem selStep_inv (idx : LibIndex) (rowDur : Option ℚ)
    (st : SelState) (cand : String × ℚ) (hc : 0 ≤ cand.2)
    (h : (st.chosenKey = none ∧ st.chosenPath = none ∧
        st.chosenScore = -1 ∧ st.bestDelta = none) ∨ 0 ≤ st.chosenScore) :
    ((selStep idx rowDur st cand).chosenKey = none ∧
      (selStep idx rowDur st cand).chosenPath = none ∧
      (selStep idx rowDur st cand).chosenScore = -1 ∧
      (selStep idx rowDur st cand).bestDelta = none) ∨
    0 ≤ (selStep idx rowDur st cand).chosenScore := by
  unfold selStep
  cases rowDur with
  | none =>
    dsimp only
    split_ifs
    · exact Or.inr hc
    · exact h
  | some td =>
    generalize bestPathForKey idx cand.1 (some td) = pth
    cases pth with
    | none =>
      dsimp only
      split_ifs
      · exact Or.inr hc
      · exact h
    | some sp =>
      dsimp only
      generalize trackDuration idx sp = tdur
      cases tdur with
      | none =>
        dsimp only
        split_ifs
        · exact Or.inr hc
        · exact h
      | some dur =>
        dsimp only
        split_ifs
        · exact Or.inr hc
        · exact h

theorem selectState_inv (idx : LibIndex) (rowDur : Option ℚ)
    (cands : List (String × ℚ)) (hc : ∀ c ∈ cands, 0 ≤ c.2) :
    ((selectState idx rowDur cands).chosenKey = none ∧
      (selectState idx rowDur cands).chosenPath = none ∧
      (selectState idx rowDur cands).chosenScore = -1 ∧
      (selectState idx rowDur cands).bestDelta = none) ∨
    0 ≤ (selectState idx rowDur cands).chosenScore := by
  unfold selectState
  suffices h : ∀ (l : List (String × ℚ)) (st0 : SelState),
      (∀ c ∈ l, 0 ≤ c.2) →
      ((st0.chosenKey = none ∧ st0.chosenPath = none ∧
          st0.chosenScore = -1 ∧ st0.bestDelta = none) ∨
        0 ≤ st0.chosenScore) →
      (((l.foldl (selStep idx rowDur) st0).chosenKey = none ∧
          (l.foldl (selStep idx rowDur) st0).chosenPath = none ∧
          (l.foldl (selStep idx rowDur) st0).chosenScore = -1 ∧
          (l.foldl (selStep idx rowDur) st0).bestDelta = none) ∨
        0 ≤ (l.foldl (selStep idx rowDur) st0).chosenScore) by
    exact h cands _ hc (Or.inl ⟨rfl, rfl, rfl, rfl⟩)
  intro l
  induction l with
  | nil => exact fun st0 _ h0 => h0
  | cons cand rest ih =>
    intro st0 hcl h0
    rw [List.foldl_cons]
    exact ih _ (fun c h => hcl c (List.mem_cons.mpr (Or.inr h)))
      (selStep_inv idx rowDur st0 cand
        (hcl cand (List.mem_cons_self _ _)) h0)

theorem filteredCands_nonneg (score : String → String → ℚ)
    (idx : LibIndex) (threshold : ℚ) (row : TrackRowL) :
    ∀ c ∈ filteredCands score idx threshold row, 0 ≤ c.2 := by
  intro c hcm
  unfold filteredCands at hcm
  have := (List.mem_filter.mp hcm).2
  have h2 : max 0 (threshold - 12) ≤ c.2 := by simpa using this
  exact le_trans (le_max_left 0 (threshold - 12)) h2

theorem matchOne_conf_nonneg (score : String → String → ℚ)
    (idx : LibIndex) (threshold : ℚ) (row : TrackRowL) :
    0 ≤ (matchOne score idx threshold row).2.2 := by
  simp only [matchOne]
  cases hlk : lookupA idx.byKey (rowKey row) with
  | some v => norm_num
  | none =>
    dsimp only
    split_ifs with h1 h2 h3 h4 h5
    · norm_num
    · norm_num
    · rcases selectState_inv idx row.duration
        (filteredCands score idx threshold row)
        (filteredCands_nonneg score idx threshold row) with hinv | hinv
      · exact absurd hinv.1 h3.1
      · exact hinv
    · rcases selectState_inv idx row.duration
        (filteredCands score idx threshold row)
        (filteredCands_nonneg score idx threshold row) with hinv | hinv
      · rw [hinv.2.2.2] at h4
        exact absurd h4.1 (by simp [deltaLe4])
      · exact le_trans hinv (le_max_left _ _)
    · exact h5
    · exact le_rfl

/-! ## Enrichment never touches artist/title -/

theorem enrichVdjBpm_preserves (vdj : List (String × VdjMeta))
    (k : String) (r : TrackRowL) :
    (enrichVdjBpm vdj k r).artist = r.artist ∧
      (enrichVdjBpm vdj k r).title = r.title := by
  unfold enrichVdjBpm
  split_ifs with h
  · cases lookupA vdj k <;> exact ⟨rfl, rfl⟩
  · exact ⟨rfl, rfl⟩

theorem enrichVdjKey_preserves (vdj : List (String × VdjMeta))
    (k : String) (r : TrackRowL) :
    (enrichVdjKey vdj k r).artist = r.artist ∧
      (enrichVdjKey vdj k r).title = r.title := by
  unfold enrichVdjKey
  cases lookupA vdj k with
  | none => split_ifs <;> exact ⟨rfl, rfl⟩
  | some m =>
    dsimp only
    split_ifs <;> exact ⟨rfl, rfl⟩

theorem enrichLib_preserves (idx : LibIndex) (k : String) (r2 : TrackRowL) :
    (enrichLib idx k r2).artist = r2.artist ∧
      (enrichLib idx k r2).title = r2.title := by
  unfold enrichLib
  generalize lookupA idx.byKey k = lv
  split_ifs <;>
    first
      | exact ⟨rfl, rfl⟩
      | (cases lv with
         | none => exact ⟨rfl, rfl⟩
         | some l =>
           cases l with
           | nil => exact ⟨rfl, rfl⟩
           | cons p0 rest =>
             dsimp only
             generalize ((lookupA idx.tracks p0).bind LibTrack.tagKey) = tkv
             split_ifs <;> (try cases tkv) <;> (try dsimp only) <;>
               (try split_ifs) <;> exact ⟨rfl, rfl⟩)

theorem enrichOne_preserves (idx : LibIndex)
    (vdj : List (String × VdjMeta)) (r : TrackRowL) :
    (enrichOne idx vdj r).artist = r.artist ∧
      (enrichOne idx vdj r).title = r.title := by
  unfold enrichOne
  obtain ⟨h1a, h1t⟩ := enrichVdjBpm_preserves vdj (rowKey r) r
  obtain ⟨h2a, h2t⟩ :=
    enrichVdjKey_preserves vdj (rowKey r) (enrichVdjBpm vdj (rowKey r) r)
  obtain ⟨h3a, h3t⟩ := enrichLib_preserves idx (rowKey r)
    (enrichVdjKey vdj (rowKey r) (enrichVdjBpm vdj (rowKey r) r))
  exact ⟨h3a.trans (h2a.trans h1a), h3t.trans (h2t.trans h1t)⟩

/-! ## resolveMatchesForRows structure -/

theorem resolveMatches_length (score : String → String → ℚ)
    (idx : LibIndex) (tidal : List (String × String)) (threshold : ℚ)
    (vdj : List (String × VdjMeta)) (rows : List TrackRowL) :
    (resolveMatchesForRows score idx tidal threshold vdj rows).length =
      rows.length := by
  unfold resolveMatchesForRows
  simp

theorem resolveMatches_get (score : String → String → ℚ)
    (idx : LibIndex) (tidal : List (String × String)) (threshold : ℚ)
    (vdj : List (String × VdjMeta)) (rows : List TrackRowL)
    (i : Nat) (h2 : i < rows.length) :
    ∃ h1 : i <
      (resolveMatchesForRows score idx tidal threshold vdj rows).length,
      ((resolveMatchesForRows score idx tidal threshold vdj rows).get
        ⟨i, h1⟩).row =
        (matchOne score idx threshold
          (enrichOne idx vdj (rows.get ⟨i, h2⟩))).1 := by
  refine ⟨by rwa [resolveMatches_length], ?_⟩
  unfold resolveMatchesForRows
  simp

/-! ## Exporter lemmas: XML escaping on clean paths -/

theorem replaceGo_no_occ {c : Char} (new : List Char) :
    ∀ (fuel : Nat) (l : List Char), l.length ≤ fuel → c ∉ l →
    replaceGo [c] new fuel l = l := by
  intro fuel
  induction fuel with
  | zero =>
    intro l hl _
    cases l with
    | nil => rfl
    | cons a as => exact absurd hl (by simp)
  | succ f ih =>
    intro l hl hc
    cases l with
    | nil => rfl
    | cons a as =>
      have hne : ¬ c = a := fun h => hc (h ▸ List.mem_cons_self a as)
      have hpre : [c].isPrefixOf (a :: as) = false := by
        simp [List.isPrefixOf]
        exact hne
      unfold replaceGo
      rw [hpre]
      simp only [Bool.false_eq_true, if_false]
      rw [ih as (by simpa using Nat.le_of_succ_le_succ hl)
        fun h => hc (List.mem_cons.mpr (Or.inr h))]

theorem replaceSub_no_occ {c : Char} (new l : List Char) (hc : c ∉ l) :
    replaceSub [c] new l = l :=
  replaceGo_no_occ new (l.length + 1) l (Nat.le_succ _) hc

theorem escapeXmlAttr_clean {p : String} (hp : cleanPath p) :
    escapeXmlAttr p = p := by
  obtain ⟨_, h1, h2, h3, h4⟩ := hp
  unfold escapeXmlAttr
  dsimp only
  rw [replaceSub_no_occ _ _ h1, replaceSub_no_occ _ _ h2,
    replaceSub_no_occ _ _ h3, replaceSub_no_occ _ _ h4]
  rfl

/-! ## Exporter lemmas: the vdjfolder line parser -/

theorem takeWhile_nq (E : List Char) (v : List Char) (hq : '"' ∉ E) :
    (E ++ '"' :: v).takeWhile (fun c => !(c = '"')) = E := by
  induction E with
  | nil => simp [List.takeWhile_cons]
  | cons a as ih =>
    have ha : ¬ a = '"' := fun h => hq (h ▸ List.mem_cons_self a as)
    rw [List.cons_append, List.takeWhile_cons]
    have hd : (!decide (a = '"')) = true := by simp [ha]
    rw [if_pos hd, ih fun h => hq (List.mem_cons.mpr (Or.inr h))]

theorem filterMap_singleton {α β : Type} (f : α → Option β)
    (l : List α) (a : α) (b : β) (hmem : a ∈ l) (hnd : l.Nodup)
    (hfa : f a = some b) (hothers : ∀ x ∈ l, x ≠ a → f x = none) :
    l.filterMap f = [b] := by
  induction l with
  | nil => exact absurd hmem (List.not_mem_nil a)
  | cons x xs ih =>
    rw [List.nodup_cons] at hnd
    rcases List.mem_cons.mp hmem with h | h
    · subst h
      rw [List.filterMap_cons_some hfa]
      rw [show xs.filterMap f = [] from List.filterMap_eq_nil_iff.mpr
        fun y hy => hothers y (List.mem_cons.mpr (Or.inr hy))
          fun he => hnd.1 (he ▸ hy)]
    · rw [List.filterMap_cons_none
        (hothers x (List.mem_cons_self x xs) fun he => hnd.1 (he ▸ h))]
      exact ih h hnd.2 fun y hy hne =>
        hothers y (List.mem_cons.mpr (Or.inr hy)) hne

theorem spa1 (E : List Char) (hq : '"' ∉ E) (hne : E ≠ []) :
    songPathAt (' ' :: 'p' :: 'a' :: 't' :: 'h' :: '=' :: '"' ::
      (E ++ ['"', ' ', '/', '>'])) 1 = some E := by
  unfold songPathAt
  rw [if_pos]
  · dsimp only
    rw [show (List.drop 1 (' ' :: 'p' :: 'a' :: 't' :: 'h' :: '=' :: '"' ::
        (E ++ ['"', ' ', '/', '>']))).drop 6 = E ++ '"' :: [' ', '/', '>']
      from rfl]
    rw [takeWhile_nq E _ hq]
    rw [if_pos]
    refine ⟨hne, ?_⟩
    rw [List.drop_left]
    rfl
  · simp +decide [List.isPrefixOf]

theorem spa_ge7 (E : List Char) (hq : '"' ∉ E) (n : Nat) :
    songPathAt (' ' :: 'p' :: 'a' :: 't' :: 'h' :: '=' :: '"' ::
      (E ++ ['"', ' ', '/', '>'])) (n + 7) = none := by
  unfold songPathAt
  dsimp only
  split_ifs with hc h2
  · exfalso
    rw [Bool.and_eq_true] at hc
    obtain ⟨-, hcp⟩ := hc
    obtain ⟨t, ht⟩ := List.isPrefixOf_iff_prefix.mp hcp
    obtain ⟨-, hh⟩ := h2
    rw [← ht] at hh
    rw [show ((['p', 'a', 't', 'h', '=', '"'] ++ t).drop 6) = t from
      List.drop_left ['p', 'a', 't', 'h', '=', '"'] t] at hh
    have hmem : '"' ∈ t := by
      generalize hd : t.drop _ = u at hh
      cases u with
      | nil => simp at hh
      | cons a l =>
        have ha : a = '"' := by simpa using hh
        subst ha
        exact List.mem_of_mem_drop (hd ▸ List.mem_cons_self _ _)
    have h1 : t.count '"' ≠ 0 := fun h0 =>
      (List.count_eq_zero.mp h0) hmem
    have hsub : ((' ' :: 'p' :: 'a' :: 't' :: 'h' :: '=' :: '"' ::
        (E ++ ['"', ' ', '/', '>'])).drop (n + 7)).count '"' ≤
        (E ++ ['"', ' ', '/', '>']).count '"' := by
      rw [show ((' ' :: 'p' :: 'a' :: 't' :: 'h' :: '=' :: '"' ::
        (E ++ ['"', ' ', '/', '>'])).drop (n + 7)) =
        (E ++ ['"', ' ', '/', '>']).drop n from rfl]
      exact ((E ++ ['"', ' ', '/', '>']).drop_sublist n).count_le _
    have hE : (E ++ ['"', ' ', '/', '>']).count '"' = 1 := by
      rw [List.count_append, List.count_eq_zero.mpr hq]
      decide
    rw [← ht, List.count_append] at hsub
    rw [hE] at hsub
    have hp1 : (['p', 'a', 't', 'h', '=', '"'] : List Char).count '"' = 1 := by
      decide
    rw [hp1] at hsub
    omega
  · rfl
  · rfl

theorem songPathCandidates_songLine (E : List Char) (hq : '"' ∉ E) (hne : E ≠ []) :
    songPathCandidates (' ' :: 'p' :: 'a' :: 't' :: 'h' :: '=' :: '"' ::
      (E ++ ['"', ' ', '/', '>'])) = [E] := by
  unfold songPathCandidates
  apply filterMap_singleton _ _ 1 E
  · simp
  · exact List.nodup_range _
  · exact spa1 E hq hne
  · intro j hj hjne
    rcases Nat.lt_or_ge j 7 with h7 | h7
    · interval_cases j
      · simp +decide [songPathAt, List.isPrefixOf]
      · exact absurd rfl hjne
      · simp +decide [songPathAt, List.isPrefixOf]
      · simp +decide [songPathAt, List.isPrefixOf]
      · simp +decide [songPathAt, List.isPrefixOf]
      · simp +decide [songPathAt, List.isPrefixOf]
      · simp +decide [songPathAt, List.isPrefixOf]
    · obtain ⟨n, rfl⟩ : ∃ n, j = n + 7 := ⟨j - 7, by omega⟩
      exact spa_ge7 E hq n

theorem parseSongAt_space (cs : List Char) : parseSongAt (' ' :: cs) = none := by
  simp +decide [parseSongAt, List.isPrefixOf]

theorem go_step_none (fuel : Nat) (c : Char) (cs : List Char)
    (h : parseSongAt (c :: cs) = none) :
    parseSongLineGo (fuel + 1) (c :: cs) = parseSongLineGo fuel cs := by
  simp [parseSongLineGo, h]

theorem go_step_some (fuel : Nat) (c : Char) (cs cap : List Char)
    (h : parseSongAt (c :: cs) = some cap) :
    parseSongLineGo (fuel + 1) (c :: cs) = some cap := by
  simp [parseSongLineGo, h]

theorem parseSongAt_songtail (E : List Char) (hq : '"' ∉ E) (hne : E ≠ []) :
    parseSongAt ('<' :: 's' :: 'o' :: 'n' :: 'g' :: ' ' :: 'p' :: 'a' ::
      't' :: 'h' :: '=' :: '"' :: (E ++ ['"', ' ', '/', '>'])) = some E := by
  unfold parseSongAt
  rw [if_pos (by simp +decide [List.isPrefixOf])]
  rw [show List.drop 5 ('<' :: 's' :: 'o' :: 'n' :: 'g' :: ' ' :: 'p' ::
    'a' :: 't' :: 'h' :: '=' :: '"' :: (E ++ ['"', ' ', '/', '>'])) =
    ' ' :: 'p' :: 'a' :: 't' :: 'h' :: '=' :: '"' ::
      (E ++ ['"', ' ', '/', '>']) from rfl]
  dsimp only
  rw [if_pos (by decide)]
  rw [songPathCandidates_songLine E hq hne]
  rfl

theorem songLine_toList (p : String) (h : cleanPath p) :
    (songLine p).toList = ' ' :: ' ' :: '<' :: 's' :: 'o' :: 'n' :: 'g' ::
      ' ' :: 'p' :: 'a' :: 't' :: 'h' :: '=' :: '"' ::
      (p.toList ++ ['"', ' ', '/', '>']) := by
  unfold songLine
  rw [escapeXmlAttr_clean h]
  show ("  <song path=\"" ++ p ++ "\" />").data = _
  rw [String.data_append, String.data_append]
  rfl

theorem parseSongLine_songLine (p : String) (h : cleanPath p) :
    parseSongLine (songLine p) = some p := by
  have hq : '"' ∉ p.toList := h.2.2.1
  have hne : p.toList ≠ [] := toList_ne_nil_of_ne_empty h.1
  unfold parseSongLine
  rw [songLine_toList p h]
  rw [show (' ' :: ' ' :: '<' :: 's' :: 'o' :: 'n' :: 'g' :: ' ' :: 'p' ::
    'a' :: 't' :: 'h' :: '=' :: '"' ::
    (p.toList ++ ['"', ' ', '/', '>'])).length + 1 =
    ((p.toList.length + 16) + 1) + 1 + 1 from by simp]
  rw [go_step_none _ _ _ (parseSongAt_space _)]
  rw [go_step_none _ _ _ (parseSongAt_space _)]
  rw [go_step_some _ _ _ _ (parseSongAt_songtail p.toList hq hne)]
  rfl

theorem filterMap_map_songLine (P : List String) (h : ∀ p ∈ P, cleanPath p) :
    (P.map songLine).filterMap parseSongLine = P := by
  induction P with
  | nil => rfl
  | cons a as ih =>
    rw [List.map_cons, List.filterMap_cons_some
      (parseSongLine_songLine a (h a (List.mem_cons_self a as)))]
    rw [ih fun p hp => h p (List.mem_cons_of_mem a hp)]

theorem parseVdjLines_writeVdjLines (P : List String)
    (h : ∀ p ∈ P, cleanPath p) :
    parseVdjLines (writeVdjLines P) = P := by
  unfold parseVdjLines writeVdjLines
  rw [List.filterMap_append,
    show (["</VirtualFolder>"] : List String).filterMap parseSongLine = []
      from by decide,
    List.append_nil,
    List.filterMap_cons_none
      (show parseSongLine "<VirtualFolder>" = none from by decide)]
  exact filterMap_map_songLine P h

theorem dropWhile_last_hash (l : List Char) :
    ∃ v, (l ++ ['#']).dropWhile isSpacePy = v ++ ['#'] := by
  induction l with
  | nil =>
    refine ⟨[], ?_⟩
    rw [List.nil_append, List.dropWhile_cons_of_neg (by decide)]
  | cons a l ih =>
    by_cases ha : isSpacePy a = true
    · obtain ⟨v, hv⟩ := ih
      exact ⟨v, by rw [List.cons_append, List.dropWhile_cons_of_pos ha, hv]⟩
    · exact ⟨a :: l, by
        rw [List.cons_append, List.dropWhile_cons_of_neg (by simp [ha])]⟩

theorem startsWithHash_pyStrip (s : String) (rest : List Char)
    (hs : s.toList = '#' :: rest) : startsWithHash (pyStrip s) = true := by
  unfold pyStrip pyTrim trimStart trimEnd
  rw [hs, List.dropWhile_cons_of_neg (by decide), List.reverse_cons]
  obtain ⟨v, hv⟩ := dropWhile_last_hash rest.reverse
  rw [hv, List.reverse_append]
  rfl

theorem parseM3u_flat (entries : List (String × String))
    (h1 : ∀ e ∈ entries, startsWithHash (pyStrip e.1) = true)
    (h2 : ∀ e ∈ entries, cleanM3uPath e.2) :
    (((entries.map fun e => [e.1, e.2]).flatten.map pyStrip).filter
      fun s => ¬ (s = "" ∨ startsWithHash s)) =
      entries.map fun e => e.2 := by
  induction entries with
  | nil => rfl
  | cons e es ih =>
    rw [List.map_cons, List.flatten_cons, List.map_append, List.filter_append]
    have he1 := h1 e (List.mem_cons_self e es)
    obtain ⟨hne, hstr, hhash⟩ := h2 e (List.mem_cons_self e es)
    rw [show ([e.1, e.2].map pyStrip) = [pyStrip e.1, pyStrip e.2] from rfl]
    rw [List.filter_cons_of_neg (by simp [he1])]
    rw [hstr, List.filter_cons_of_pos (by simp [hne, hhash])]
    rw [List.filter_nil, List.map_cons]
    rw [ih (fun x hx => h1 x (List.mem_cons_of_mem e hx))
      (fun x hx => h2 x (List.mem_cons_of_mem e hx))]
    rfl

theorem parseM3uLines_writeM3uLines (entries : List (String × String))
    (h1 : ∀ e ∈ entries, startsWithHash (pyStrip e.1) = true)
    (h2 : ∀ e ∈ entries, cleanM3uPath e.2) :
    parseM3uLines (writeM3uLines entries) = entries.map fun e => e.2 := by
  unfold parseM3uLines writeM3uLines
  rw [List.map_cons, List.filter_cons_of_neg (by decide)]
  exact parseM3u_flat entries h1 h2

theorem buildM3u_fst_hash (ms : List MatchResultL) :
    ∀ e ∈ buildM3uEntries ms, startsWithHash (pyStrip e.1) = true := by
  intro e he
  unfold buildM3uEntries at he
  rw [List.mem_filterMap] at he
  obtain ⟨m, hm, hfm⟩ := he
  generalize hl : m.localPath = lp at hfm
  cases lp with
  | none => simp at hfm
  | some pth =>
    dsimp only at hfm
    rw [Option.some_inj] at hfm
    subst hfm
    exact startsWithHash_pyStrip _ _ rfl

/-! ## Concrete evaluations for the resolver and merger counterexamples -/

theorem wfcC3 : filteredCands wScore75 wIdxC3 85 wRowC3 = [("a - x", 75)] := by
  unfold filteredCands extractTop
  rw [show wIdxC3.byKey.map Prod.fst = ["a - x"] from rfl]
  rw [show (["a - x"].map fun k => (k, wScore75 (rowKey wRowC3) k)) =
    [("a - x", (75 : ℚ))] from rfl]
  rw [show ([("a - x", (75 : ℚ))].insertionSort scoreGe) =
    [("a - x", (75 : ℚ))] from rfl]
  rw [show ([("a - x", (75 : ℚ))].take 8) = [("a - x", (75 : ℚ))] from rfl]
  rw [List.filter_cons, if_pos (by norm_num), List.filter_nil]

theorem wbpC3 : bestPathForKey wIdxC3 "a - x" (some 201) = some "p1" := by
  unfold bestPathForKey
  rw [show lookupA wIdxC3.byKey "a - x" = some ("p1" :: []) from by decide]
  dsimp only
  rw [List.foldl_cons, List.foldl_nil]
  unfold bestPathStep
  rw [show trackDuration wIdxC3 "p1" = some 200 from by decide]

theorem wselC3 : selectState wIdxC3 wRowC3.duration [("a - x", (75 : ℚ))] =
    ⟨some "a - x", some "p1", 75, some 1⟩ := by
  unfold selectState
  rw [List.foldl_cons, List.foldl_nil]
  show selStep wIdxC3 (some 201) ⟨none, none, -1, none⟩ ("a - x", 75) = _
  unfold selStep
  dsimp only
  rw [wbpC3]
  dsimp only
  rw [show trackDuration wIdxC3 "p1" = some 200 from by decide]
  dsimp only
  rw [if_pos (by simp [durUpdateCond])]
  have h : |(200 : ℚ) - 201| = 1 := by norm_num
  rw [h]

theorem wfcC390 : filteredCands wScore90 wIdxC3 85 wRowC3 = [("a - x", 90)] := by
  unfold filteredCands extractTop
  rw [show wIdxC3.byKey.map Prod.fst = ["a - x"] from rfl]
  rw [show (["a - x"].map fun k => (k, wScore90 (rowKey wRowC3) k)) =
    [("a - x", (90 : ℚ))] from rfl]
  rw [show ([("a - x", (90 : ℚ))].insertionSort scoreGe) =
    [("a - x", (90 : ℚ))] from rfl]
  rw [show ([("a - x", (90 : ℚ))].take 8) = [("a - x", (90 : ℚ))] from rfl]
  rw [List.filter_cons, if_pos (by norm_num), List.filter_nil]

theorem wselC390 : selectState wIdxC3 wRowC3.duration [("a - x", (90 : ℚ))] =
    ⟨some "a - x", some "p1", 90, some 1⟩ := by
  unfold selectState
  rw [List.foldl_cons, List.foldl_nil]
  show selStep wIdxC3 (some 201) ⟨none, none, -1, none⟩ ("a - x", 90) = _
  unfold selStep
  dsimp only
  rw [wbpC3]
  dsimp only
  rw [show trackDuration wIdxC3 "p1" = some 200 from by decide]
  dsimp only
  rw [if_pos (by simp [durUpdateCond])]
  have h : |(200 : ℚ) - 201| = 1 := by norm_num
  rw [h]

theorem wmatchC3 : matchOne wScore75 wIdxC3 85 wRowC3 = (wRowC3, none, 75) := by
  rw [matchOne_select wScore75 wIdxC3 85 wRowC3 (by decide) (by decide)
    (by rw [wfcC3]; decide)]
  rw [wfcC3]
  dsimp only
  rw [wselC3]
  dsimp only
  rw [if_neg (fun h => absurd h.2 (by norm_num)),
    if_neg (fun h => absurd h.2 (by norm_num)), if_pos (by norm_num)]

theorem wmatchC390 : matchOne wScore90 wIdxC3 85 wRowC3 =
    (wRowC3, some "p1", 90) := by
  rw [matchOne_select wScore90 wIdxC3 85 wRowC3 (by decide) (by decide)
    (by rw [wfcC390]; decide)]
  rw [wfcC390]
  dsimp only
  rw [wselC390]
  dsimp only
  rw [if_pos ⟨by simp, by norm_num⟩]

theorem wprocC4a : processRow "2025-01-01" [] wRowC4a =
    [newRow "A" "B & C" "2025-01-01" (rowParams wRowC4a)] := by
  unfold processRow
  rw [show rowIdent wRowC4a = some ("A", "B & C") from by decide]
  rfl

theorem wprocC4b : processRow "2025-01-01"
    [newRow "A" "B & C" "2025-01-01" (rowParams wRowC4a)] wRowC4b =
    [newRow "A" "B & C" "2025-01-01" (rowParams wRowC4a),
      newRow "A" "B and C" "2025-01-01" (rowParams wRowC4b)] := by
  unfold processRow
  rw [show rowIdent wRowC4b = some ("A", "B and C") from by decide]
  dsimp only
  rw [mergeInto_cons_neg (show catKey (newRow "A" "B & C" "2025-01-01"
    (rowParams wRowC4a)) ≠ normalizeKey2 "A" "B and C" from by decide)]
  rfl

theorem wmergeC4 : mergeTable [] [wRowC4a, wRowC4b] "2025-01-01" =
    [newRow "A" "B & C" "2025-01-01" (rowParams wRowC4a),
      newRow "A" "B and C" "2025-01-01" (rowParams wRowC4b)] := by
  rw [mergeTable_cons, wprocC4a, mergeTable_cons, wprocC4b]
  rfl

/-! ## The claims -/

/-- C1: merging the same per-run table with the same run date twice yields a catalog identical to merging it once: on a catalog with pairwise-distinct keys, `mergeCatalog` is idempotent, so station sets, dates, BPM/Key cells and the row set are unchanged by the repeat application. -/
theorem C1_merge_idempotent (c : List CumRow) (t : List InRow) (d : String)
    (hu : UniqueKeys c) :
    mergeCatalog (mergeCatalog c t d) t d = mergeCatalog c t d := by
  show sortCatalog (mergeTable (sortCatalog (mergeTable c t d)) t d) = _
  rw [mergeTable_eq_self t fun row hr =>
    absorbs_sortCatalog (uniqueKeys_mergeTable hu) (absorbs_all t c row hr)]
  exact sortCatalog_of_sorted (sortCatalog_sorted _)

/-- C1, witness at a concrete catalog and per-run table. -/
theorem C1_merge_idempotent_witness :
    mergeCatalog (mergeCatalog [] [wRowIn] "2025-01-01") [wRowIn]
      "2025-01-01" = mergeCatalog [] [wRowIn] "2025-01-01" :=
  C1_merge_idempotent [] [wRowIn] "2025-01-01"
    (by unfold UniqueKeys; exact List.Pairwise.nil)

/-- C2: the spec requires normalize(normalize(s)) = normalize(s) for every string, but the code fails this: on "Song (Club Remix)" the normalizer leaves a trailing space ("song ") that a second application strips, so `normalize_text` is not idempotent. -/
theorem C2_normalize_not_idempotent :
    normalize_text (normalize_text "Song (Club Remix)") ≠
      normalize_text "Song (Club Remix)" := by decide

/-- C3 (amended): on a row without an exact key hit, a local match is returned only when the chosen score reaches the threshold, or when the duration delta is at most 4 seconds AND the score is at least threshold - 8 (a condition the frozen claim omits); every returned local match has confidence at least threshold - 2, and in the rescue case the confidence is the score floored at threshold - 2. -/
theorem C3_rescue_requires_near_threshold (score : String → String → ℚ)
    (idx : LibIndex) (threshold : ℚ) (row : TrackRowL)
    (hnx : lookupA idx.byKey (rowKey row) = none) :
    ((matchOne score idx threshold row).2.1 ≠ none →
      threshold - 2 ≤ (matchOne score idx threshold row).2.2) ∧
    ((matchOne score idx threshold row).2.1 ≠ none →
      (threshold ≤ (selectState idx row.duration
          (filteredCands score idx threshold row)).chosenScore ∧
        (matchOne score idx threshold row).2.2 =
          (selectState idx row.duration
            (filteredCands score idx threshold row)).chosenScore) ∨
      (deltaLe4 (selectState idx row.duration
          (filteredCands score idx threshold row)).bestDelta ∧
        threshold - 8 ≤ (selectState idx row.duration
          (filteredCands score idx threshold row)).chosenScore ∧
        (matchOne score idx threshold row).2.2 =
          max (selectState idx row.duration
            (filteredCands score idx threshold row)).chosenScore
            (threshold - 2))) := by
  by_cases hk : idx.byKey.map Prod.fst = []
  · rw [matchOne_no_keys score idx threshold row hnx hk]
    exact ⟨fun h => absurd rfl h, fun h => absurd rfl h⟩
  · by_cases hc : filteredCands score idx threshold row = []
    · rw [matchOne_no_cands score idx threshold row hnx hc]
      exact ⟨fun h => absurd rfl h, fun h => absurd rfl h⟩
    · rw [matchOne_select score idx threshold row hnx hk hc]
      dsimp only
      split_ifs with h1 h2 h3
      · exact ⟨fun _ => le_trans (by norm_num) h1.2,
          fun _ => Or.inl ⟨h1.2, rfl⟩⟩
      · exact ⟨fun _ => le_max_right _ _,
          fun _ => Or.inr ⟨h2.1, h2.2, rfl⟩⟩
      · exact ⟨fun h => absurd rfl h, fun h => absurd rfl h⟩
      · exact ⟨fun h => absurd rfl h, fun h => absurd rfl h⟩

/-- C3, counterexample to the frozen claim: a candidate with duration delta 1 (≤ 4 s) but score 75 < threshold - 8 = 77 is not accepted — the resolver returns no local path — contradicting the claim that a below-threshold candidate with delta ≤ 4 is accepted anyway. -/
theorem C3_low_score_not_rescued :
    (matchOne wScore75 wIdxC3 85 wRowC3).2.1 = none ∧
    (matchOne wScore75 wIdxC3 85 wRowC3).2.2 = 75 ∧
    deltaLe4 (selectState wIdxC3 wRowC3.duration
      (filteredCands wScore75 wIdxC3 85 wRowC3)).bestDelta ∧
    (selectState wIdxC3 wRowC3.duration
      (filteredCands wScore75 wIdxC3 85 wRowC3)).chosenScore = 75 ∧
    (75 : ℚ) < 85 := by
  rw [wmatchC3, wfcC3, wselC3]
  refine ⟨rfl, rfl, ?_, rfl, by norm_num⟩
  show (1 : ℚ) ≤ 4
  norm_num

/-- C3, witness: at score 90 the same row is matched and the returned confidence is at least threshold - 2. -/
theorem C3_rescue_witness :
    (85 : ℚ) - 2 ≤ (matchOne wScore90 wIdxC3 85 wRowC3).2.2 :=
  (C3_rescue_requires_near_threshold wScore90 wIdxC3 85 wRowC3
    (by decide)).1 (by rw [wmatchC390]; exact Option.some_ne_none _)

/-- C4 (amended): the durable catalog keeps at most one row per canonical key across any sequence of merges, where the merger keys on the lowercased, stripped "artist - title" (`_normalize_key2`), not on the identity normalizer named by the frozen claim. -/
theorem C4_unique_normalized_keys (c : List CumRow)
    (runs : List (List InRow × String)) (hu : UniqueKeys c) :
    UniqueKeys (mergeSeq c runs) := by
  induction runs generalizing c with
  | nil => exact hu
  | cons m rest ih => exact ih _ (uniqueKeys_mergeCatalog hu)

/-- C4, counterexample to the frozen claim: two per-run rows whose spec-level canonical keys (normalize(artist) + " - " + normalize(title)) coincide end up as two distinct catalog rows, because the merger keys on plain strip+lowercase. -/
theorem C4_two_rows_one_spec_key :
    normalize_key "A" "B & C" = normalize_key "A" "B and C" ∧
    (mergeCatalog [] [wRowC4a, wRowC4b] "2025-01-01").length = 2 ∧
    ((mergeCatalog [] [wRowC4a, wRowC4b] "2025-01-01").countP fun r =>
      normalize_key r.artist r.title = "a - b and c") = 2 := by
  refine ⟨by decide, ?_, ?_⟩
  · rw [show mergeCatalog [] [wRowC4a, wRowC4b] "2025-01-01" =
      sortCatalog (mergeTable [] [wRowC4a, wRowC4b] "2025-01-01") from rfl]
    rw [(sortCatalog_perm _).length_eq, wmergeC4]
    rfl
  · rw [show mergeCatalog [] [wRowC4a, wRowC4b] "2025-01-01" =
      sortCatalog (mergeTable [] [wRowC4a, wRowC4b] "2025-01-01") from rfl]
    rw [(sortCatalog_perm _).countP_eq, wmergeC4]
    decide

/-- C4, witness of the amended claim at a concrete run. -/
theorem C4_unique_keys_witness :
    UniqueKeys (mergeSeq [] [([wRowC4a, wRowC4b], "2025-01-01")]) :=
  C4_unique_normalized_keys [] [([wRowC4a, wRowC4b], "2025-01-01")]
    (by unfold UniqueKeys; exact List.Pairwise.nil)

/-- C5: after a merge every catalog row satisfies first_seen ≤ last_seen, and for every key of a well-formed catalog the merged row has first_seen no later than before and last_seen no earlier than before. -/
theorem C5_dates_monotone (c : List CumRow) (t : List InRow) (d : String)
    (hu : UniqueKeys c) (hd : d ≠ "") (hok : DatesOK c) :
    DatesOK (mergeCatalog c t d) ∧
    ∀ k r, findKey c k = some r → r.firstSeen ≠ "" →
      ∃ r2, findKey (mergeCatalog c t d) k = some r2 ∧
        r2.firstSeen ≤ r.firstSeen ∧ r2.firstSeen ≠ "" ∧
        r.lastSeen ≤ r2.lastSeen := by
  refine ⟨datesOK_mergeCatalog hok, ?_⟩
  intro k r hf hfs
  obtain ⟨r2, hf2, hfsp, hls, _⟩ := track_mergeTable hd t c k r hf
  obtain ⟨h2le, h2ne⟩ := hfsp hfs
  exact ⟨r2, findKey_perm (uniqueKeys_mergeTable hu)
    (sortCatalog_perm _).symm hf2, h2le, h2ne, hls⟩

/-- C5, witness at a concrete catalog and run. -/
theorem C5_dates_monotone_witness :
    DatesOK (mergeCatalog [wRowCat] [wRowIn] "2025-01-03") :=
  (C5_dates_monotone [wRowCat] [wRowIn] "2025-01-03"
    (by simp [UniqueKeys]) (by decide)
    (by
      intro r hr
      rw [List.mem_singleton] at hr
      subst hr
      show ("2025-01-01" : String) ≤ "2025-01-02"
      rw [String.le_iff_toList_le]
      decide)).1

/-- C6: across a merge no station tag is lost from a row (the stored set only grows), and the in-place update stores exactly the union of the existing and the incoming station sets. -/
theorem C6_sources_grow (c : List CumRow) (t : List InRow) (d : String)
    (hu : UniqueKeys c) (hd : d ≠ "") :
    (∀ k r, findKey c k = some r →
      ∃ r2, findKey (mergeCatalog c t d) k = some r2 ∧
        splitStations r.stations ⊆ splitStations r2.stations) ∧
    (∀ p r, (∀ x ∈ p.today, goodToken x) →
      splitStations (applyUpdate d p r).stations =
        splitStations r.stations ∪ p.today) := by
  refine ⟨?_, fun p r hg => applyUpdate_stations d p r hg⟩
  intro k r hf
  obtain ⟨r2, hf2, _, _, hst⟩ := track_mergeTable hd t c k r hf
  exact ⟨r2, findKey_perm (uniqueKeys_mergeTable hu)
    (sortCatalog_perm _).symm hf2, hst⟩

/-- C6, witness at a concrete row update. -/
theorem C6_sources_grow_witness :
    splitStations (applyUpdate "2025-01-03" (rowParams wRowIn)
      wRowCat).stations =
      splitStations wRowCat.stations ∪ (rowParams wRowIn).today :=
  (C6_sources_grow [wRowCat] [wRowIn] "2025-01-03" (by simp [UniqueKeys])
    (by decide)).2 (rowParams wRowIn) wRowCat (rowParams_good wRowIn)

/-- C7: a row whose canonical key hits the library reverse index exactly resolves with confidence exactly 100, independent of scorer and threshold; with no row duration the first candidate path is taken, and with a duration the returned path has a recorded duration at least as close as any candidate with one. -/
theorem C7_exact_match (score score2 : String → String → ℚ)
    (idx : LibIndex) (th th2 : ℚ) (row : TrackRowL) (p0 : String)
    (rest : List String)
    (hlk : lookupA idx.byKey (rowKey row) = some (p0 :: rest)) :
    matchOne score idx th row =
      (row, bestPathForKey idx (rowKey row) row.duration, 100) ∧
    matchOne score idx th row = matchOne score2 idx th2 row ∧
    (row.duration = none →
      bestPathForKey idx (rowKey row) row.duration = some p0) ∧
    (∀ dr, row.duration = some dr → ∀ q ∈ p0 :: rest, ∀ dq,
      trackDuration idx q = some dq →
      ∃ p dp, bestPathForKey idx (rowKey row) row.duration = some p ∧
        trackDuration idx p = some dp ∧ |dp - dr| ≤ |dq - dr|) := by
  refine ⟨matchOne_exact score idx th row hlk,
    (matchOne_exact score idx th row hlk).trans
      (matchOne_exact score2 idx th2 row hlk).symm, ?_, ?_⟩
  · intro hd
    rw [hd]
    exact bestPathForKey_none_dur idx _ hlk
  · intro dr hd q hq dq hdq
    rw [hd]
    exact bestPathForKey_closest idx _ dr hlk hq hdq

/-- C7, witness on a concrete two-candidate index. -/
theorem C7_exact_match_witness :
    matchOne wScore75 wIdxC7 85 wRowC7 =
      (wRowC7, bestPathForKey wIdxC7 (rowKey wRowC7) wRowC7.duration, 100) :=
  (C7_exact_match wScore75 wScore75 wIdxC7 85 40 wRowC7 "p1" ["p2"]
    (by decide)).1

/-- C8 (amended): add-mode export on an existing file keeps the original entries first, in order, and appends exactly the new entries whose path is not already present — provided (for .vdjfolder) every existing path is free of XML-special characters, and (for .m3u8) stored paths are nonempty, strip-invariant non-comment lines; a missing file behaves like replace. -/
theorem C8_add_mode (ms : List MatchResultL) (ug : Bool) (P : List String)
    (E : List (String × String))
    (hP : ∀ p ∈ P, cleanPath p)
    (h1 : ∀ e ∈ E, startsWithHash (pyStrip e.1) = true)
    (h2 : ∀ e ∈ E, cleanM3uPath e.2) :
    exportVdjfolderMode ms (some (writeVdjLines P)) ExportMode.add ug =
      writeVdjLines (P ++ (buildSongPaths ms ug).filter fun pth =>
        pth ∉ P) ∧
    exportM3u8Mode ms (some (writeM3uLines E)) ExportMode.add =
      writeM3uLines E ++ (((buildM3uEntries ms).filter fun e =>
        e.2 ∉ E.map fun e => e.2).map fun e => [e.1, e.2]).flatten ∧
    exportVdjfolderMode ms none ExportMode.add ug =
      exportVdjfolderMode ms none ExportMode.replace ug ∧
    exportM3u8Mode ms none ExportMode.add =
      exportM3u8Mode ms none ExportMode.replace := by
  refine ⟨?_, ?_, rfl, rfl⟩
  · unfold exportVdjfolderMode
    dsimp only
    rw [parseVdjLines_writeVdjLines P hP]
  · unfold exportM3u8Mode
    dsimp only
    rw [parseM3uLines_writeM3uLines E h1 h2]

/-- C8, witness of the amended claim on concrete files. -/
theorem C8_add_mode_witness :
    exportVdjfolderMode [wM8] (some (writeVdjLines ["old.mp3"]))
      ExportMode.add false =
      writeVdjLines (["old.mp3"] ++
        (buildSongPaths [wM8] false).filter fun pth =>
          pth ∉ ["old.mp3"]) ∧
    exportM3u8Mode [wM8] (some (writeM3uLines
      [("#EXTINF:-1,X - Y", "file.mp3")])) ExportMode.add =
      writeM3uLines [("#EXTINF:-1,X - Y", "file.mp3")] ++
        (((buildM3uEntries [wM8]).filter fun e =>
          e.2 ∉ [("#EXTINF:-1,X - Y", "file.mp3")].map fun e =>
            e.2).map fun e => [e.1, e.2]).flatten ∧
    exportVdjfolderMode [wM8] none ExportMode.add false =
      exportVdjfolderMode [wM8] none ExportMode.replace false ∧
    exportM3u8Mode [wM8] none ExportMode.add =
      exportM3u8Mode [wM8] none ExportMode.replace :=
  C8_add_mode [wM8] false ["old.mp3"] [("#EXTINF:-1,X - Y", "file.mp3")]
    (by decide) (by decide) (by decide)

/-- C8, counterexample to the frozen claim: an existing .vdjfolder holding the single path "a&b" plus one new entry with the same path (N = 1, M = 1, K = 1) yields 2 song entries instead of N + (M - K) = 1, because the exporter compares the raw new path against the escaped stored text and re-escapes on write. -/
theorem C8_escaped_dup_reappended :
    exportVdjfolderMode [wMAmp] (some (writeVdjLines ["a&b"]))
      ExportMode.add false ≠ writeVdjLines ["a&b"] ∧
    (exportVdjfolderMode [wMAmp] (some (writeVdjLines ["a&b"]))
      ExportMode.add false).length = 4 ∧
    (writeVdjLines ["a&b"]).length = 3 := by decide

/-- C9: when the stable catalog file exists but cannot be parsed, the merge run signals the error (the uncaught read_csv exception) and writes nothing: the directory is unchanged. -/
theorem C9_corrupt_aborts (fs : CumulativeDir) (t : List InRow) (d : String)
    (hc : fs.stable = some CsvFile.corrupt) :
    runMerge fs t d = Except.error () ∧ afterRun fs t d = fs := by
  have h1 : runMerge fs t d = Except.error () := by
    unfold runMerge
    rw [hc]
  exact ⟨h1, by unfold afterRun; rw [h1]⟩

/-- C9, witness on a concrete corrupt directory. -/
theorem C9_corrupt_aborts_witness :
    runMerge ⟨some CsvFile.corrupt, none⟩ [wRowIn] "2025-01-01" =
      Except.error () ∧
    afterRun ⟨some CsvFile.corrupt, none⟩ [wRowIn] "2025-01-01" =
      ⟨some CsvFile.corrupt, none⟩ :=
  C9_corrupt_aborts ⟨some CsvFile.corrupt, none⟩ [wRowIn] "2025-01-01" rfl

/-- C10: the resolver returns exactly one result per input row, in input order, preserving each row artist and title; every confidence is non-negative, and a row with no exact hit and no candidate past the filter window yields no path and confidence 0. -/
theorem C10_one_result_per_row (score : String → String → ℚ)
    (idx : LibIndex) (tidal : List (String × String)) (threshold : ℚ)
    (vdj : List (String × VdjMeta)) (rows : List TrackRowL) :
    (resolveMatchesForRows score idx tidal threshold vdj rows).length =
      rows.length ∧
    (∀ i (h2 : i < rows.length),
      ∃ h1 : i < (resolveMatchesForRows score idx tidal threshold vdj
          rows).length,
        ((resolveMatchesForRows score idx tidal threshold vdj rows).get
            ⟨i, h1⟩).row =
          (matchOne score idx threshold
            (enrichOne idx vdj (rows.get ⟨i, h2⟩))).1 ∧
        ((resolveMatchesForRows score idx tidal threshold vdj rows).get
            ⟨i, h1⟩).row.artist = (rows.get ⟨i, h2⟩).artist ∧
        ((resolveMatchesForRows score idx tidal threshold vdj rows).get
            ⟨i, h1⟩).row.title = (rows.get ⟨i, h2⟩).title) ∧
    (∀ m ∈ resolveMatchesForRows score idx tidal threshold vdj rows,
      0 ≤ m.confidence) ∧
    (∀ row, lookupA idx.byKey (rowKey row) = none →
      filteredCands score idx threshold row = [] →
      matchOne score idx threshold row = (row, none, 0)) := by
  refine ⟨resolveMatches_length score idx tidal threshold vdj rows,
    ?_, ?_, fun row hnx hc =>
      matchOne_no_cands score idx threshold row hnx hc⟩
  · intro i h2
    obtain ⟨h1, hrow⟩ :=
      resolveMatches_get score idx tidal threshold vdj rows i h2
    refine ⟨h1, hrow, ?_, ?_⟩
    · rw [hrow, matchOne_fst]
      exact (enrichOne_preserves idx vdj _).1
    · rw [hrow, matchOne_fst]
      exact (enrichOne_preserves idx vdj _).2
  · intro m hm
    unfold resolveMatchesForRows at hm
    obtain ⟨m1, hm1, hme⟩ := List.mem_map.mp hm
    obtain ⟨r2, hr2, hm2⟩ := List.mem_map.mp hm1
    subst hme
    subst hm2
    exact matchOne_conf_nonneg score idx threshold r2

end RadioExplorer
